import Mathlib

/-!
# Verification of the Zopfli-style DEFLATE compression engine

The repository's test drivers (`debug_test.c`, `test_crash.c`) exercise an
optimal-parsing DEFLATE compression engine through the entry point
`ZopfliDeflatePart`.  The engine itself is not among the repository's
source files; the drivers only declare and call it.  Following the project
specification, the engine is therefore modelled here from the spec: every
definition whose doc comment starts with `Modelled from the spec:` is a
shallow embedding of a component the spec describes (Configuration,
Symbol Statistics, Cost Model, Optimal Parser, Block Splitter, Huffman
Code Builder, Bit Writer / Block Emitter, Driver), faithful to the spec's
words.  Bytes are `Nat` (0–255), buffers are `List Nat`, and the engine is
a pure function threading an explicit output / cursor / seed state.

The bit-packed output layer is modelled at the symbol level: a block is a
structured value (stored bytes, or an LZ77 symbol sequence with its block
type), and the standards-compliant decoder is modelled by LZ77 expansion
of those blocks.  The Huffman code builder is modelled down to concrete
canonical code assignment, and its prefix property is stated numerically
(codeword `(len₁,v₁)` is a prefix of `(len₂,v₂)` iff `len₁ ≤ len₂` and
`v₂ / 2^(len₂-len₁) = v₁`, the arithmetic form of MSB-first bitstring
prefixes).
-/

namespace Zopfli

/-! ## Configuration (spec §3, §4.1) -/

/-- Modelled from the spec: the `Configuration` record (spec §3) together
with the `ZopfliOptions` fields the test drivers set (`verbose`,
`numiterations`, `blocksplittingmax`).  Counts are `Int` so that the
invalid non-positive values of spec §4.1 are representable. -/
structure ZopfliOptions where
  verbose : Bool
  numiterations : Int
  blocksplitting : Bool
  blocksplittingmax : Int
deriving Repr, DecidableEq

/-- Modelled from the spec: `ZopfliInitOptions`, which the missing engine
exports and both test drivers call before overriding individual fields.
The spec (§4.1) requires any constructed configuration to satisfy
`iterationCount ≥ 1` and `blockSplittingMax ≥ 1`; the defaults chosen here
satisfy those constraints. -/
def ZopfliInitOptions : ZopfliOptions :=
  { verbose := false
    numiterations := 15
    blocksplitting := true
    blocksplittingmax := 15 }

/-- Modelled from the spec: error taxonomy of §7. -/
inductive ZopfliError where
  | InvalidConfig
  | InvalidRange
  | AllocationFailure
deriving Repr, DecidableEq

/-- Modelled from the spec: `blockTypeHint` (§6), one of
Auto / Stored / FixedHuffman / DynamicHuffman. -/
inductive BlockTypeHint where
  | auto
  | storedType
  | fixedType
  | dynamicType
deriving Repr, DecidableEq

/-- Configuration validity check of spec §4.1:
`iterationCount ≥ 1` and `blockSplittingMax ≥ 1`. -/
def validOptions (o : ZopfliOptions) : Bool :=
  decide (1 ≤ o.numiterations) && decide (1 ≤ o.blocksplittingmax)

/-! ## LZ77 symbols and decoding (spec §3 LZ77Sequence, glossary) -/

/-- Modelled from the spec: one element of an `LZ77Sequence` — either a
literal byte or a (length, distance) back-reference. -/
inductive LZSym where
  | lit (b : Nat)
  | ref (len dist : Nat)
deriving Repr, DecidableEq

/-- Number of input bytes one symbol covers. -/
def symLen : LZSym → Nat
  | .lit _ => 1
  | .ref len _ => len

/-- Total number of input bytes a symbol sequence covers. -/
def seqLen (s : List LZSym) : Nat := (s.map symLen).sum

/-- Expand one back-reference byte by byte onto the decoded history;
copying one byte at a time handles overlapping matches
(`dist < len`) exactly as a DEFLATE decoder does. -/
def refExpand (hist : List Nat) (dist : Nat) : Nat → List Nat
  | 0 => hist
  | n + 1 => refExpand (hist ++ [hist.getD (hist.length - dist) 0]) dist n

/-- LZ77 expansion of a symbol sequence given the already-decoded history:
this is the content a standards-compliant DEFLATE decoder reconstructs
from a block's symbol stream. -/
def lzDecode (hist : List Nat) : List LZSym → List Nat
  | [] => hist
  | .lit b :: rest => lzDecode (hist ++ [b]) rest
  | .ref len dist :: rest => lzDecode (refExpand hist dist len) rest

/-- A back-reference `(len, dist)` is well formed at absolute position
`pos` of input `inp`: positive distance, reaching no further back than the
start of the buffer, staying inside the buffer, and every referenced byte
matching. -/
def matchAt (inp : List Nat) (pos dist len : Nat) : Bool :=
  decide (1 ≤ dist) && decide (dist ≤ pos) && decide (pos + len ≤ inp.length) &&
  (List.range len).all (fun i => inp.getD (pos + i) 0 == inp.getD (pos + i - dist) 0)

/-- A symbol sequence is a faithful encoding of `inp` starting at absolute
position `pos`: each literal equals the byte at its position and each
back-reference matches prior content. -/
def okSeq (inp : List Nat) : Nat → List LZSym → Prop
  | _, [] => True
  | pos, .lit b :: rest =>
      pos < inp.length ∧ inp.getD pos 0 = b ∧ okSeq inp (pos + 1) rest
  | pos, .ref len dist :: rest =>
      1 ≤ len ∧ matchAt inp pos dist len = true ∧ okSeq inp (pos + len) rest

/-- Reading inside the taken prefix agrees with reading the full list. -/
theorem getD_take_of_lt (l : List Nat) (n i d : Nat) (h : i < n) :
    (l.take n).getD i d = l.getD i d := by
  simp [List.getD, List.getElem?_take_of_lt h]

/-- Appending the byte at position `i` to the prefix of length `i`
extends the prefix by one. -/
theorem take_succ_getD (l : List Nat) (i d : Nat) (h : i < l.length) :
    l.take i ++ [l.getD i d] = l.take (i + 1) := by
  rw [List.take_succ]
  simp [List.getD, List.getElem?_eq_getElem h]

/-- Expanding a well-formed back-reference reproduces exactly the matched
input bytes. -/
theorem refExpand_take (inp : List Nat) (dist : Nat) :
    ∀ (len pos : Nat), 1 ≤ dist → dist ≤ pos → pos + len ≤ inp.length →
    (∀ i, i < len → inp.getD (pos + i) 0 = inp.getD (pos + i - dist) 0) →
    refExpand (inp.take pos) dist len = inp.take (pos + len) := by
  intro len
  induction len with
  | zero => intro pos _ _ _ _; simp [refExpand]
  | succ n ih =>
    intro pos h1 h2 h3 h4
    have hposlt : pos < inp.length := by omega
    have hlen : (inp.take pos).length = pos := by
      simp [List.length_take]; omega
    have hsrc : (inp.take pos).getD ((inp.take pos).length - dist) 0
        = inp.getD (pos - dist) 0 := by
      rw [hlen]
      exact getD_take_of_lt inp pos (pos - dist) 0 (by omega)
    have hbyte : inp.getD (pos - dist) 0 = inp.getD pos 0 := by
      have := h4 0 (by omega)
      simpa using this.symm
    have hstep : inp.take pos ++ [(inp.take pos).getD ((inp.take pos).length - dist) 0]
        = inp.take (pos + 1) := by
      rw [hsrc, hbyte]
      exact take_succ_getD inp pos 0 hposlt
    show refExpand (inp.take pos ++ [(inp.take pos).getD ((inp.take pos).length - dist) 0]) dist n
        = inp.take (pos + (n + 1))
    rw [hstep]
    have := ih (pos + 1) h1 (by omega) (by omega)
      (fun i hi => by
        have := h4 (i + 1) (by omega)
        have e1 : pos + (i + 1) = pos + 1 + i := by omega
        rwa [e1] at this)
    rw [this]
    congr 1
    omega

/-- Decoding a faithful symbol sequence starting from the decoded prefix
`inp.take pos` yields exactly `inp.take (pos + seqLen seq)`: the LZ77
layer is lossless. -/
theorem lzDecode_okSeq (inp : List Nat) :
    ∀ (seq : List LZSym) (pos : Nat), okSeq inp pos seq →
    lzDecode (inp.take pos) seq = inp.take (pos + seqLen seq) := by
  intro seq
  induction seq with
  | nil => intro pos _; simp [lzDecode, seqLen]
  | cons s rest ih =>
    intro pos hok
    cases s with
    | lit b =>
      obtain ⟨hlt, hb, hrest⟩ := hok
      have hstep : inp.take pos ++ [b] = inp.take (pos + 1) := by
        rw [← hb]
        exact take_succ_getD inp pos 0 hlt
      show lzDecode (inp.take pos ++ [b]) rest = _
      rw [hstep, ih (pos + 1) hrest]
      congr 1
      simp [seqLen, symLen]
      omega
    | ref len dist =>
      obtain ⟨hlen, hm, hrest⟩ := hok
      simp only [matchAt, Bool.and_eq_true, decide_eq_true_eq, List.all_eq_true] at hm
      obtain ⟨⟨⟨hd1, hd2⟩, hd3⟩, hd4⟩ := hm
      have hexp := refExpand_take inp dist len pos hd1 hd2 hd3
        (fun i hi => by
          have := hd4 i (List.mem_range.mpr hi)
          exact Nat.eq_of_beq_eq_true (by simpa using this))
      show lzDecode (refExpand (inp.take pos) dist len) rest = _
      rw [hexp, ih (pos + len) hrest]
      congr 1
      simp [seqLen, symLen]
      omega

/-! ## DEFLATE symbol tables (RFC 1951 §3.2.5, spec §3 SymbolStatistics) -/

/-- Length codes 257–285 as `(minimum match length, extra bits)` pairs
(RFC 1951 §3.2.5). -/
def lengthCodeTable : List (Nat × Nat) :=
  [(3, 0), (4, 0), (5, 0), (6, 0), (7, 0), (8, 0), (9, 0), (10, 0),
   (11, 1), (13, 1), (15, 1), (17, 1),
   (19, 2), (23, 2), (27, 2), (31, 2),
   (35, 3), (43, 3), (51, 3), (59, 3),
   (67, 4), (83, 4), (99, 4), (115, 4),
   (131, 5), (163, 5), (195, 5), (227, 5), (258, 0)]

/-- Minimum match length of each length code 257–285. -/
def lengthSymbolMinLen : List Nat := lengthCodeTable.map (·.1)

/-- Length-code extra bit counts. -/
def lengthExtraBitsList : List Nat := lengthCodeTable.map (·.2)

/-- Literal/length-alphabet symbol (257–285) encoding match length `l`. -/
def lengthSymbolOf (l : Nat) : Nat :=
  257 + ((lengthSymbolMinLen.filter (· ≤ l)).length - 1)

/-- Extra bits that accompany the length code of match length `l`. -/
def lengthExtraBitsOf (l : Nat) : Nat :=
  lengthExtraBitsList.getD ((lengthSymbolMinLen.filter (· ≤ l)).length - 1) 0

/-- Distance codes 0–29 as `(minimum distance, extra bits)` pairs
(RFC 1951 §3.2.5). -/
def distCodeTable : List (Nat × Nat) :=
  [(1, 0), (2, 0), (3, 0), (4, 0), (5, 1), (7, 1), (9, 2), (13, 2),
   (17, 3), (25, 3), (33, 4), (49, 4), (65, 5), (97, 5), (129, 6), (193, 6),
   (257, 7), (385, 7), (513, 8), (769, 8), (1025, 9), (1537, 9),
   (2049, 10), (3073, 10), (4097, 11), (6145, 11), (8193, 12), (12289, 12),
   (16385, 13), (24577, 13)]

/-- Minimum distance of each distance code 0–29. -/
def distSymbolMinDist : List Nat := distCodeTable.map (·.1)

/-- Distance-alphabet symbol (0–29) encoding distance `d`. -/
def distSymbolOf (d : Nat) : Nat :=
  (distSymbolMinDist.filter (· ≤ d)).length - 1

/-- Distance-code extra bit counts. -/
def distExtraBitsList : List Nat := distCodeTable.map (·.2)

/-- Extra bits that accompany the distance code of distance `d`. -/
def distExtraBitsOf (d : Nat) : Nat :=
  distExtraBitsList.getD (distSymbolOf d) 0

/-! ## Cost model (spec §4.2) -/

/-- Modelled from the spec: the Cost Model interface of §4.2, a per-symbol
estimated bit cost used to guide the parse.  Costs are integer bit
estimates (the reference implementation's floating-point estimates are
modelled as `Nat` bit counts). -/
structure CostModel where
  litCost : Nat → Nat
  lenCost : Nat → Nat
  distCost : Nat → Nat

/-! ## Optimal parser — "squeeze" (spec §4.3) -/

/-- Modelled from the spec: the match finder of §4.3 — all candidate
`(length, distance)` back-references at absolute position `pos`, with
distances bounded by the format's window (32768), lengths in 3–258, and
every candidate checked against the input (the hash-chain index of a fast
implementation is modelled by direct substring comparison).  All match
lengths are produced, not just the longest, as the optimal parse
requires. -/
def matchCandidates (inp : List Nat) (pos : Nat) : List (Nat × Nat) :=
  ((List.range (min pos 32768)).map (· + 1)).flatMap (fun d =>
    ((List.range (min 258 (inp.length - pos) - 2)).map (· + 3)).filterMap (fun l =>
      if matchAt inp pos d l then some (l, d) else none))

/-- Every candidate the match finder returns is a checked match of length
at least 3. -/
theorem matchCandidates_ok (inp : List Nat) (pos : Nat) :
    ∀ ld ∈ matchCandidates inp pos,
      3 ≤ ld.1 ∧ matchAt inp pos ld.2 ld.1 = true := by
  intro ld hld
  simp only [matchCandidates, List.mem_flatMap, List.mem_filterMap, List.mem_map,
    List.mem_range] at hld
  obtain ⟨d, _, l, ⟨⟨l0, _, hl0⟩, hif⟩⟩ := hld
  by_cases hm : matchAt inp pos d l
  · simp [hm] at hif
    cases hif
    exact ⟨by omega, hm⟩
  · simp [hm] at hif

/-- Keep the lower-cost of two `(cost, sequence)` table entries; the
incumbent wins ties (earliest-discovered minimal-cost path, spec §4.3). -/
def pickMinFst {α : Type} : (Nat × α) → List (Nat × α) → (Nat × α)
  | best, [] => best
  | best, x :: rest => pickMinFst (if x.1 < best.1 then x else best) rest

/-- `pickMinFst` returns one of its inputs. -/
theorem pickMinFst_mem {α : Type} :
    ∀ (l : List (Nat × α)) (best : Nat × α),
      pickMinFst best l = best ∨ pickMinFst best l ∈ l := by
  intro l
  induction l with
  | nil => intro best; exact Or.inl rfl
  | cons x rest ih =>
    intro best
    have hstep : pickMinFst best (x :: rest)
        = pickMinFst (if x.1 < best.1 then x else best) rest := rfl
    rcases ih (if x.1 < best.1 then x else best) with h | h
    · by_cases hc : x.1 < best.1
      · right; rw [hstep, h, if_pos hc]; exact List.mem_cons_self x rest
      · left; rw [hstep, h, if_neg hc]
    · right; rw [hstep]; exact List.mem_cons_of_mem x h

/-- Any property holding for the incumbent and all challengers holds for
the entry `pickMinFst` retains. -/
theorem pickMinFst_prop {α : Type} (P : Nat × α → Prop)
    (l : List (Nat × α)) (best : Nat × α)
    (hb : P best) (hl : ∀ x ∈ l, P x) : P (pickMinFst best l) := by
  rcases pickMinFst_mem l best with h | h
  · rw [h]; exact hb
  · exact hl _ h

/-- `pickMinFst` returns an entry of cost at most the incumbent's and at
most every challenger's. -/
theorem pickMinFst_le {α : Type} :
    ∀ (l : List (Nat × α)) (best : Nat × α),
      (pickMinFst best l).1 ≤ best.1 ∧
        ∀ x ∈ l, (pickMinFst best l).1 ≤ x.1 := by
  intro l
  induction l with
  | nil => intro best; exact ⟨Nat.le_refl _, by simp⟩
  | cons x rest ih =>
    intro best
    have hstep : pickMinFst best (x :: rest)
        = pickMinFst (if x.1 < best.1 then x else best) rest := rfl
    by_cases hc : x.1 < best.1
    · rw [hstep, if_pos hc]
      obtain ⟨h1, h2⟩ := ih x
      refine ⟨by omega, ?_⟩
      intro y hy
      rcases List.mem_cons.mp hy with rfl | hy
      · exact h1
      · exact h2 y hy
    · rw [hstep, if_neg hc]
      obtain ⟨h1, h2⟩ := ih best
      refine ⟨h1, ?_⟩
      intro y hy
      rcases List.mem_cons.mp hy with rfl | hy
      · omega
      · exact h2 y hy

/-- One relaxation step of the shortest-path table: all back-reference
edges out of position `i`, each extending the optimal tail stored in the
table for the position the reference jumps to. -/
def stepCandidates (inp : List Nat) (cm : CostModel) (i : Nat)
    (tbl : List (Nat × List LZSym)) : List (Nat × List LZSym) :=
  (matchCandidates inp i).filterMap (fun ld =>
    match tbl.get? (ld.1 - 1) with
    | some en => some (cm.lenCost ld.1 + cm.distCost ld.2 + en.1,
                       LZSym.ref ld.1 ld.2 :: en.2)
    | none => none)

/-- Modelled from the spec: the shortest-path dynamic program of §4.3,
computed right to left.  `squeezeTable inp cm e k` is the table of
minimum-estimated-cost `(cost, sequence)` entries for positions
`e - k … e`; entry `j` encodes `inp[e-k+j : e]`. -/
def squeezeTable (inp : List Nat) (cm : CostModel) (e : Nat) :
    Nat → List (Nat × List LZSym)
  | 0 => [(0, [])]
  | k + 1 =>
      let tbl := squeezeTable inp cm e k
      let i := e - (k + 1)
      let b := inp.getD i 0
      let hd := tbl.headD (0, [])
      let litEntry : Nat × List LZSym := (cm.litCost b + hd.1, LZSym.lit b :: hd.2)
      pickMinFst litEntry (stepCandidates inp cm i tbl) :: tbl

/-- Modelled from the spec: the Optimal Parser of §4.3 — an LZ77Sequence
for `inp[s:e]` minimizing total estimated bit cost under the given cost
model. -/
def squeeze (inp : List Nat) (cm : CostModel) (s e : Nat) : List LZSym :=
  ((squeezeTable inp cm e (e - s)).headD (0, [])).2

/-- `headD` of a nonempty list is its first element. -/
theorem headD_get {α : Type} (l : List α) (d : α) (h : 0 < l.length) :
    l.headD d = l.get ⟨0, h⟩ := by
  cases l with
  | nil => simp at h
  | cons a t => rfl

/-- Invariant of the squeeze table: it has one entry per position
`e - k … e`, and entry `j` is a faithful encoding of `inp[e-k+j : e]`. -/
theorem squeezeTable_ok (inp : List Nat) (cm : CostModel) (e : Nat)
    (he : e ≤ inp.length) :
    ∀ k, k ≤ e →
      (squeezeTable inp cm e k).length = k + 1 ∧
      ∀ j (h : j < (squeezeTable inp cm e k).length),
        okSeq inp (e - k + j) ((squeezeTable inp cm e k).get ⟨j, h⟩).2 ∧
        seqLen ((squeezeTable inp cm e k).get ⟨j, h⟩).2 = k - j := by
  intro k
  induction k with
  | zero =>
    intro _
    refine ⟨rfl, ?_⟩
    intro j h
    have hj : j = 0 := by
      have : (squeezeTable inp cm e 0).length = 1 := rfl
      omega
    subst hj
    exact ⟨trivial, rfl⟩
  | succ k ih =>
    intro hk
    obtain ⟨hlen, hinv⟩ := ih (by omega)
    have hunf : squeezeTable inp cm e (k + 1)
        = pickMinFst
            (cm.litCost (inp.getD (e - (k + 1)) 0)
               + ((squeezeTable inp cm e k).headD (0, [])).1,
             LZSym.lit (inp.getD (e - (k + 1)) 0)
               :: ((squeezeTable inp cm e k).headD (0, [])).2)
            (stepCandidates inp cm (e - (k + 1)) (squeezeTable inp cm e k))
          :: squeezeTable inp cm e k := rfl
    set tbl := squeezeTable inp cm e k with htbl
    set i := e - (k + 1) with hi
    have hi1 : i + 1 = e - k := by omega
    have hilt : i < inp.length := by omega
    -- the head of the old table encodes inp[e-k : e]
    have h0 : 0 < tbl.length := by omega
    have hhd : tbl.headD (0, []) = tbl.get ⟨0, h0⟩ := headD_get tbl (0, []) h0
    have hhd0 := hinv 0 h0
    -- the property every candidate head entry satisfies
    have hP : ∀ x, x = (cm.litCost (inp.getD i 0) + (tbl.headD (0, [])).1,
                  LZSym.lit (inp.getD i 0) :: (tbl.headD (0, [])).2)
            ∨ x ∈ stepCandidates inp cm i tbl →
          okSeq inp i x.2 ∧ seqLen x.2 = k + 1 := by
      rintro x (rfl | hx)
      · -- literal edge
        rw [hhd]
        refine ⟨⟨hilt, rfl, ?_⟩, ?_⟩
        · have h1 := hhd0.1
          rw [show e - k + 0 = i + 1 by omega] at h1
          exact h1
        · have := hhd0.2
          simp only [seqLen, List.map_cons, List.sum_cons, symLen] at this ⊢
          omega
      · -- back-reference edge
        simp only [stepCandidates, List.mem_filterMap] at hx
        obtain ⟨ld, hmem, hsome⟩ := hx
        obtain ⟨hl3, hmOK⟩ := matchCandidates_ok inp i ld hmem
        cases hget : tbl.get? (ld.1 - 1) with
        | none => rw [hget] at hsome; simp at hsome
        | some en =>
          rw [hget] at hsome
          simp only [Option.some.injEq] at hsome
          subst hsome
          obtain ⟨hidx, hgeteq⟩ := List.get?_eq_some.mp hget
          have hen := hinv (ld.1 - 1) hidx
          rw [hgeteq] at hen
          have hpos : e - k + (ld.1 - 1) = i + ld.1 := by omega
          rw [hpos] at hen
          refine ⟨⟨by omega, hmOK, hen.1⟩, ?_⟩
          have := hen.2
          simp only [seqLen, List.map_cons, List.sum_cons, symLen] at this ⊢
          omega
    rw [hunf]
    refine ⟨by simp [hlen], ?_⟩
    intro j h
    cases j with
    | zero =>
      have hpick := pickMinFst_prop
        (fun en => okSeq inp i en.2 ∧ seqLen en.2 = k + 1)
        (stepCandidates inp cm i tbl)
        (cm.litCost (inp.getD i 0) + (tbl.headD (0, [])).1,
         LZSym.lit (inp.getD i 0) :: (tbl.headD (0, [])).2)
        (hP _ (Or.inl rfl)) (fun x hx => hP x (Or.inr hx))
      refine ⟨?_, ?_⟩
      · show okSeq inp (e - (k + 1) + 0) _
        simpa using hpick.1
      · simpa using hpick.2
    | succ j' =>
      have hj' : j' < tbl.length := by
        simp only [List.length_cons] at h
        omega
      have := hinv j' hj'
      have harith : e - (k + 1) + (j' + 1) = e - k + j' := by omega
      refine ⟨?_, ?_⟩
      · show okSeq inp (e - (k + 1) + (j' + 1)) ((tbl.get ⟨j', hj'⟩).2)
        rw [harith]
        exact this.1
      · show seqLen ((tbl.get ⟨j', hj'⟩).2) = (k + 1) - (j' + 1)
        have := this.2
        omega

/-- The optimal parse of `inp[s:e]` is a faithful encoding covering
exactly `e - s` bytes. -/
theorem squeeze_ok (inp : List Nat) (cm : CostModel) (s e : Nat)
    (hse : s ≤ e) (he : e ≤ inp.length) :
    okSeq inp s (squeeze inp cm s e) ∧ seqLen (squeeze inp cm s e) = e - s := by
  obtain ⟨hlen, hinv⟩ := squeezeTable_ok inp cm e he (e - s) (by omega)
  have h0 : 0 < (squeezeTable inp cm e (e - s)).length := by omega
  have hhd : (squeezeTable inp cm e (e - s)).headD (0, [])
      = (squeezeTable inp cm e (e - s)).get ⟨0, h0⟩ :=
    headD_get _ (0, []) h0
  have := hinv 0 h0
  have hs : e - (e - s) + 0 = s := by omega
  rw [hs] at this
  constructor
  · show okSeq inp s ((squeezeTable inp cm e (e - s)).headD (0, [])).2
    rw [hhd]; exact this.1
  · show seqLen ((squeezeTable inp cm e (e - s)).headD (0, [])).2 = e - s
    rw [hhd]
    have := this.2
    omega

/-- Decoding the optimal parse of `inp[s:e]` from the decoded prefix
`inp[0:s]` reproduces `inp[0:e]`: the parser is lossless. -/
theorem squeeze_decode (inp : List Nat) (cm : CostModel) (s e : Nat)
    (hse : s ≤ e) (he : e ≤ inp.length) :
    lzDecode (inp.take s) (squeeze inp cm s e) = inp.take e := by
  obtain ⟨hok, hlen⟩ := squeeze_ok inp cm s e hse he
  rw [lzDecode_okSeq inp _ s hok, hlen]
  congr 1
  omega

/-! ## Symbol statistics and cost model construction (spec §4.2) -/

/-- Modelled from the spec: `SymbolStatistics` (§3) — frequency tables for
the 288-symbol literal/length alphabet and the 30-symbol distance
alphabet. -/
structure SymbolStats where
  litlens : List Nat
  dists : List Nat
deriving Repr, DecidableEq

/-- All-zero frequency tables. -/
def emptyStats : SymbolStats :=
  ⟨List.replicate 288 0, List.replicate 30 0⟩

/-- Increment one frequency table entry. -/
def bumpAt (l : List Nat) (i : Nat) : List Nat :=
  l.set i (l.getD i 0 + 1)

/-- Count one LZ77 symbol into the statistics. -/
def statsAddSym (st : SymbolStats) : LZSym → SymbolStats
  | .lit b => { st with litlens := bumpAt st.litlens b }
  | .ref len dist =>
      { st with
        litlens := bumpAt st.litlens (lengthSymbolOf len)
        dists := bumpAt st.dists (distSymbolOf dist) }

/-- Modelled from the spec: statistics rebuilt from one iteration's
LZ77Sequence (§4.2); the end-of-block symbol 256 is always counted once,
since end-of-block is always present (§4.5). -/
def statsFromSeq (seq : List LZSym) : SymbolStats :=
  seq.foldl statsAddSym { emptyStats with litlens := bumpAt emptyStats.litlens 256 }

/-- Floor base-2 logarithm, by fuel-indexed structural recursion. -/
def log2F : Nat → Nat → Nat
  | 0, _ => 0
  | fuel + 1, n => if n ≤ 1 then 0 else log2F fuel (n / 2) + 1

/-- Floor base-2 logarithm (`natLog2 0 = 0`). -/
def natLog2 (n : Nat) : Nat := log2F n n

/-- Modelled from the spec: Shannon-entropy-style integer bit estimate
`-log2(freq/total)` clamped to a minimum of 1 (§4.2); unused symbols get a
large fixed cost. -/
def entropyBits (freq total : Nat) : Nat :=
  if freq = 0 then 32 else max 1 (natLog2 (total / freq) + 1)

/-- Modelled from the spec: the cost model derived from current
statistics (§4.2); back-reference costs include the format's extra
bits (§4.3). -/
def costModelOf (st : SymbolStats) : CostModel :=
  { litCost := fun b => entropyBits (st.litlens.getD b 0) st.litlens.sum
    lenCost := fun l =>
      entropyBits (st.litlens.getD (lengthSymbolOf l) 0) st.litlens.sum
        + lengthExtraBitsOf l
    distCost := fun d =>
      entropyBits (st.dists.getD (distSymbolOf d) 0) st.dists.sum
        + distExtraBitsOf d }

/-- Modelled from the spec: the fixed, neutral initial cost model used by
the first iteration, before any statistics exist (§4.3); the constants
mirror the fixed DEFLATE code lengths. -/
def initialCostModel : CostModel :=
  { litCost := fun _ => 9
    lenCost := fun l => 8 + lengthExtraBitsOf l
    distCost := fun d => 5 + distExtraBitsOf d }

/-- Estimated bit cost of a whole sequence under a cost model. -/
def seqCostWith (cm : CostModel) (seq : List LZSym) : Nat :=
  (seq.map (fun s => match s with
    | .lit b => cm.litCost b
    | .ref l d => cm.lenCost l + cm.distCost d)).sum

/-- Modelled from the spec: the estimated bit cost of emitting a sequence
as one dynamic-Huffman block — entropy cost of the sequence under its own
histogram plus a constant header estimate (§4.2, §4.6). -/
def blockCostEst (seq : List LZSym) : Nat :=
  50 + seqCostWith (costModelOf (statsFromSeq seq)) seq

/-! ## Pseudo-randomness and perturbation (spec §4.2, §9) -/

/-- Modelled from the spec: the explicit, caller-seedable pseudo-random
generator of design note §9 — a linear congruential step. -/
def lcgNext (seed : Nat) : Nat :=
  (seed * 1103515245 + 12345) % 2147483648

/-- Modelled from the spec: bounded random perturbation of the statistics
to escape local minima (§4.2) — one literal/length entry and one distance
entry are incremented, chosen by the seed. -/
def perturbStats (seed : Nat) (st : SymbolStats) : SymbolStats × Nat :=
  (⟨bumpAt st.litlens (seed % 288), bumpAt st.dists ((seed / 288) % 30)⟩,
   lcgNext seed)

/-! ## Iterative refinement loop (spec §4.2, §4.7) -/

/-- Modelled from the spec: the per-sub-range refinement state — the
best-cost LZ77Sequence seen so far with its cost, the current statistics,
and the PRNG seed. -/
structure IterState where
  bestSeq : List LZSym
  bestCost : Nat
  stats : SymbolStats
  seed : Nat
deriving Repr, DecidableEq

/-- Modelled from the spec: the first refinement iteration — parse with
the neutral initial cost model and seed the statistics from the result
(§4.3, §4.7). -/
def refineInit (inp : List Nat) (s e seed : Nat) : IterState :=
  let seq := squeeze inp initialCostModel s e
  ⟨seq, blockCostEst seq, statsFromSeq seq, seed⟩

/-- Modelled from the spec: one later refinement iteration (§4.2, §4.7) —
re-parse under the cost model of the current statistics, keep the
best-cost sequence seen, rebuild statistics from the new parse, and
perturb them (advancing the seed) only when the iteration failed to
improve on the best-known cost. -/
def refineStep (inp : List Nat) (s e : Nat) (st : IterState) : IterState :=
  let seq := squeeze inp (costModelOf st.stats) s e
  let c := blockCostEst seq
  let base := statsFromSeq seq
  if c < st.bestCost then
    ⟨seq, c, base, st.seed⟩
  else
    let (pst, seed') := perturbStats st.seed base
    ⟨st.bestSeq, st.bestCost, pst, seed'⟩

/-- State after `1 + n` refinement iterations of one sub-range. -/
def refineIters (inp : List Nat) (s e seed : Nat) : Nat → IterState
  | 0 => refineInit inp s e seed
  | n + 1 => refineStep inp s e (refineIters inp s e seed n)

/-- Estimated parse cost produced by iteration `1 + n` of one
sub-range. -/
def iterCost (inp : List Nat) (s e seed : Nat) : Nat → Nat
  | 0 => blockCostEst (squeeze inp initialCostModel s e)
  | n + 1 => blockCostEst (squeeze inp
      (costModelOf (refineIters inp s e seed n).stats) s e)

/-- One refinement step never increases the retained best cost. -/
theorem refineStep_bestCost_le (inp : List Nat) (s e : Nat) (st : IterState) :
    (refineStep inp s e st).bestCost ≤ st.bestCost := by
  unfold refineStep
  by_cases hc : blockCostEst (squeeze inp (costModelOf st.stats) s e) < st.bestCost
  · simp only [hc, if_true]
    omega
  · simp only [hc, if_false]
    exact Nat.le_refl _

/-- The retained best cost is non-increasing across iterations. -/
theorem refineIters_bestCost_antitone (inp : List Nat) (s e seed : Nat) :
    ∀ i j, i ≤ j →
      (refineIters inp s e seed j).bestCost ≤ (refineIters inp s e seed i).bestCost := by
  intro i j hij
  induction j with
  | zero =>
    have : i = 0 := by omega
    subst this
    exact Nat.le_refl _
  | succ n ih =>
    by_cases h : i ≤ n
    · exact Nat.le_trans (refineStep_bestCost_le inp s e (refineIters inp s e seed n)) (ih h)
    · have : i = n + 1 := by omega
      subst this
      exact Nat.le_refl _

/-- The retained best cost always equals the cost of the retained best
sequence. -/
theorem refineIters_best_consistent (inp : List Nat) (s e seed : Nat) :
    ∀ n, (refineIters inp s e seed n).bestCost
        = blockCostEst (refineIters inp s e seed n).bestSeq := by
  intro n
  induction n with
  | zero => rfl
  | succ n ih =>
    show (refineStep inp s e (refineIters inp s e seed n)).bestCost
        = blockCostEst (refineStep inp s e (refineIters inp s e seed n)).bestSeq
    unfold refineStep
    by_cases hc : blockCostEst (squeeze inp
        (costModelOf (refineIters inp s e seed n).stats) s e)
        < (refineIters inp s e seed n).bestCost
    · simp only [hc, if_true]
    · simp only [hc, if_false]
      exact ih

/-- The retained best cost after any number of iterations is exactly the
minimum parse cost seen over all iterations so far. -/
theorem refineIters_bestCost_min (inp : List Nat) (s e seed : Nat) :
    ∀ n, (∀ i ≤ n, (refineIters inp s e seed n).bestCost ≤ iterCost inp s e seed i)
      ∧ ∃ i ≤ n, (refineIters inp s e seed n).bestCost = iterCost inp s e seed i := by
  intro n
  induction n with
  | zero =>
    constructor
    · intro i hi
      have : i = 0 := by omega
      subst this
      exact Nat.le_refl _
    · exact ⟨0, Nat.le_refl 0, rfl⟩
  | succ n ih =>
    obtain ⟨hle, ⟨i0, hi0, heq⟩⟩ := ih
    have hstep : (refineIters inp s e seed (n + 1)).bestCost
        = min (iterCost inp s e seed (n + 1)) (refineIters inp s e seed n).bestCost := by
      show (refineStep inp s e (refineIters inp s e seed n)).bestCost = _
      have hiter : iterCost inp s e seed (n + 1)
          = blockCostEst (squeeze inp
              (costModelOf (refineIters inp s e seed n).stats) s e) := rfl
      unfold refineStep
      by_cases hc : blockCostEst (squeeze inp
          (costModelOf (refineIters inp s e seed n).stats) s e)
          < (refineIters inp s e seed n).bestCost
      · simp only [hc, if_true]
        rw [hiter]
        omega
      · simp only [hc, if_false]
        rw [hiter]
        omega
    constructor
    · intro i hi
      rw [hstep]
      rcases Nat.lt_or_ge i (n + 1) with h | h
      · have := hle i (by omega)
        omega
      · have : i = n + 1 := by omega
        subst this
        omega
    · rw [hstep]
      rcases Nat.le_total (iterCost inp s e seed (n + 1)) (refineIters inp s e seed n).bestCost
        with h | h
      · exact ⟨n + 1, Nat.le_refl _, by omega⟩
      · exact ⟨i0, by omega, by omega⟩

/-! ## Block splitter (spec §4.4) -/

/-- Modelled from the spec: the minimum block size the splitter respects
to avoid pathological fragmentation (§4.4). -/
def minSplitSize : Nat := 10

/-- Modelled from the spec: the Block Splitter's estimated cost of coding
a range as one block (§4.4) — Shannon-style entropy estimate of the
range's byte histogram plus a constant header estimate. -/
def rangeCostEst (inp : List Nat) (s e : Nat) : Nat :=
  let bytes := (inp.drop s).take (e - s)
  10 + (bytes.map (fun b => entropyBits (bytes.count b) bytes.length)).sum

/-- Candidate split points inside `[s, e)` that keep both halves at least
`minSplitSize` bytes long. -/
def splitCandidates (s e : Nat) : List Nat :=
  ((List.range (e - s)).map (· + s)).filter
    (fun m => decide (s + minSplitSize ≤ m) && decide (m + minSplitSize ≤ e))

/-- Every candidate split point lies strictly inside the range with the
minimum block size on both sides. -/
theorem splitCandidates_bounds (s e : Nat) :
    ∀ m ∈ splitCandidates s e, s + minSplitSize ≤ m ∧ m + minSplitSize ≤ e := by
  intro m hm
  simp only [splitCandidates, List.mem_filter, Bool.and_eq_true, decide_eq_true_eq] at hm
  exact hm.2

/-- Modelled from the spec: the single best split point of a range (§4.4)
— the candidate minimizing the two halves' estimated cost, accepted only
when it improves on the unsplit cost. -/
def findBestSplit (inp : List Nat) (s e : Nat) : Option Nat :=
  match (splitCandidates s e).map
      (fun m => (rangeCostEst inp s m + rangeCostEst inp m e, m)) with
  | [] => none
  | c :: rest =>
      if (pickMinFst c rest).1 < rangeCostEst inp s e
      then some (pickMinFst c rest).2 else none

/-- An accepted split point lies strictly inside its range, with the
minimum block size on both sides. -/
theorem findBestSplit_bounds (inp : List Nat) (s e m : Nat)
    (h : findBestSplit inp s e = some m) :
    s + minSplitSize ≤ m ∧ m + minSplitSize ≤ e := by
  unfold findBestSplit at h
  cases hmap : (splitCandidates s e).map
      (fun m => (rangeCostEst inp s m + rangeCostEst inp m e, m)) with
  | nil => rw [hmap] at h; simp at h
  | cons c rest =>
    rw [hmap] at h
    have h' : (if (pickMinFst c rest).1 < rangeCostEst inp s e
        then some (pickMinFst c rest).2 else none) = some m := h
    clear h
    by_cases hc : (pickMinFst c rest).1 < rangeCostEst inp s e
    · rw [if_pos hc] at h'
      simp only [Option.some.injEq] at h'
      have hmem : pickMinFst c rest ∈ c :: rest := by
        rcases pickMinFst_mem rest c with h' | h'
        · rw [h']; exact List.mem_cons_self c rest
        · exact List.mem_cons_of_mem c h'
      rw [← hmap] at hmem
      simp only [List.mem_map] at hmem
      obtain ⟨m', hm', heq⟩ := hmem
      have := splitCandidates_bounds s e m' hm'
      have hm2 : m = m' := by
        rw [← h', ← heq]
      omega
    · rw [if_neg hc] at h'; simp at h'

/-- Modelled from the spec: the recursive Block Splitter (§4.4) — find
the single best split point, accept it if it improves estimated cost, and
recurse into each half, with the block budget divided between the halves
so the total number of blocks never exceeds the budget.  With a budget of
one (or no improving split point) the range stays whole.  The recursion
is indexed by explicit fuel; `blockSplit` supplies fuel equal to the
budget, which the budget halving can never exhaust. -/
def blockSplitF (inp : List Nat) : Nat → Nat → Nat → Nat → List (Nat × Nat)
  | 0, s, e, _ => [(s, e)]
  | fuel + 1, s, e, b =>
      if b ≤ 1 then [(s, e)]
      else
        match findBestSplit inp s e with
        | none => [(s, e)]
        | some m =>
            blockSplitF inp fuel s m ((b + 1) / 2)
              ++ blockSplitF inp fuel m e (b - (b + 1) / 2)

/-- Modelled from the spec: the Block Splitter's partition of `[s, e)`
under block budget `b` (§4.4). -/
def blockSplit (inp : List Nat) (s e b : Nat) : List (Nat × Nat) :=
  blockSplitF inp b s e b

/-- The splitter returns consecutive ranges: a chain from `s` to `e`. -/
inductive Covers : Nat → Nat → List (Nat × Nat) → Prop
  | nil (s : Nat) : Covers s s []
  | cons (s m e : Nat) (rest : List (Nat × Nat)) :
      Covers m e rest → Covers s e ((s, m) :: rest)

/-- Chains concatenate. -/
theorem Covers.append {s m e : Nat} :
    ∀ {l1 l2 : List (Nat × Nat)}, Covers s m l1 → Covers m e l2 →
      Covers s e (l1 ++ l2) := by
  intro l1
  induction l1 generalizing s with
  | nil =>
    intro l2 h1 h2
    cases h1
    simpa using h2
  | cons r rest ih =>
    intro l2 h1 h2
    cases h1 with
    | cons _ m' _ _ h1' =>
      exact Covers.cons _ m' _ _ (ih h1' h2)

/-- The splitter's output is a consecutive chain of sub-ranges from `s`
to `e`, each within `[s, e]`, each of at most `max b 1` total count. -/
theorem blockSplitF_covers (inp : List Nat) :
    ∀ (fuel b s e : Nat), s ≤ e →
      Covers s e (blockSplitF inp fuel s e b) ∧
      (∀ r ∈ blockSplitF inp fuel s e b, s ≤ r.1 ∧ r.1 ≤ r.2 ∧ r.2 ≤ e) ∧
      (blockSplitF inp fuel s e b).length ≤ max b 1 := by
  intro fuel
  induction fuel with
  | zero =>
    intro b s e hse
    refine ⟨Covers.cons s e e [] (Covers.nil e), ?_, ?_⟩
    · intro r hr
      simp only [blockSplitF, List.mem_singleton] at hr
      subst hr
      exact ⟨Nat.le_refl s, hse, Nat.le_refl e⟩
    · show [(s, e)].length ≤ max b 1
      simp
  | succ fuel ih =>
    intro b s e hse
    by_cases hb : b ≤ 1
    · rw [show blockSplitF inp (fuel + 1) s e b
          = if b ≤ 1 then [(s, e)] else _ from rfl, if_pos hb]
      refine ⟨Covers.cons s e e [] (Covers.nil e), ?_, by simp⟩
      intro r hr
      simp only [List.mem_singleton] at hr
      subst hr
      exact ⟨Nat.le_refl s, hse, Nat.le_refl e⟩
    · rw [show blockSplitF inp (fuel + 1) s e b
          = if b ≤ 1 then [(s, e)] else
              (match findBestSplit inp s e with
                | none => [(s, e)]
                | some m =>
                    blockSplitF inp fuel s m ((b + 1) / 2)
                      ++ blockSplitF inp fuel m e (b - (b + 1) / 2)) from rfl,
          if_neg hb]
      cases hsplit : findBestSplit inp s e with
      | none =>
        refine ⟨Covers.cons s e e [] (Covers.nil e), ?_, by simp⟩
        intro r hr
        simp only [List.mem_singleton] at hr
        subst hr
        exact ⟨Nat.le_refl s, hse, Nat.le_refl e⟩
      | some m =>
        obtain ⟨hm1, hm2⟩ := findBestSplit_bounds inp s e m hsplit
        obtain ⟨hc1, hr1, hl1⟩ := ih ((b + 1) / 2) s m (by omega)
        obtain ⟨hc2, hr2, hl2⟩ := ih (b - (b + 1) / 2) m e (by omega)
        refine ⟨Covers.append hc1 hc2, ?_, ?_⟩
        · intro r hr
          rcases List.mem_append.mp hr with h | h
          · have := hr1 r h
            omega
          · have := hr2 r h
            omega
        · rw [List.length_append]
          have : 1 ≤ (b + 1) / 2 ∧ 1 ≤ b - (b + 1) / 2 := by omega
          omega

/-- The splitter's output is a consecutive chain of in-bounds sub-ranges
of bounded count. -/
theorem blockSplit_covers (inp : List Nat) (b s e : Nat) (hse : s ≤ e) :
    Covers s e (blockSplit inp s e b) ∧
    (∀ r ∈ blockSplit inp s e b, s ≤ r.1 ∧ r.1 ≤ r.2 ∧ r.2 ≤ e) ∧
    (blockSplit inp s e b).length ≤ max b 1 :=
  blockSplitF_covers inp b b s e hse

/-- The splitter never returns an empty partition. -/
theorem blockSplitF_ne_nil (inp : List Nat) :
    ∀ (fuel b s e : Nat), blockSplitF inp fuel s e b ≠ [] := by
  intro fuel
  induction fuel with
  | zero => intro b s e; simp [blockSplitF]
  | succ fuel ih =>
    intro b s e
    by_cases hb : b ≤ 1
    · rw [show blockSplitF inp (fuel + 1) s e b
          = if b ≤ 1 then [(s, e)] else _ from rfl, if_pos hb]
      simp
    · rw [show blockSplitF inp (fuel + 1) s e b
          = if b ≤ 1 then [(s, e)] else
              (match findBestSplit inp s e with
                | none => [(s, e)]
                | some m =>
                    blockSplitF inp fuel s m ((b + 1) / 2)
                      ++ blockSplitF inp fuel m e (b - (b + 1) / 2)) from rfl,
          if_neg hb]
      cases hsplit : findBestSplit inp s e with
      | none => simp
      | some m =>
        intro hcontra
        rw [List.append_eq_nil] at hcontra
        exact ih ((b + 1) / 2) s m hcontra.1

/-- The splitter never returns an empty partition. -/
theorem blockSplit_ne_nil (inp : List Nat) (b s e : Nat) :
    blockSplit inp s e b ≠ [] :=
  blockSplitF_ne_nil inp b b s e

/-- The splitter on an empty range returns just that range. -/
theorem blockSplit_empty_range (inp : List Nat) (b k : Nat) :
    blockSplit inp k k b = [(k, k)] := by
  unfold blockSplit
  cases b with
  | zero => rfl
  | succ b' =>
    by_cases hb : b' + 1 ≤ 1
    · rw [show blockSplitF inp (b' + 1) k k (b' + 1)
          = if b' + 1 ≤ 1 then [(k, k)] else _ from rfl, if_pos hb]
    · rw [show blockSplitF inp (b' + 1) k k (b' + 1)
          = if b' + 1 ≤ 1 then [(k, k)] else
              (match findBestSplit inp k k with
                | none => [(k, k)]
                | some m =>
                    blockSplitF inp b' k m ((b' + 1 + 1) / 2)
                      ++ blockSplitF inp b' m k (b' + 1 - (b' + 1 + 1) / 2)) from rfl,
          if_neg hb]
      cases hsplit : findBestSplit inp k k with
      | none => rfl
      | some m =>
        have := findBestSplit_bounds inp k k m hsplit
        have : minSplitSize = 10 := rfl
        omega

/-! ## Blocks, the bit writer / block emitter (spec §4.6) -/

/-- Modelled from the spec: the content of one emitted DEFLATE block —
stored raw bytes, or a Huffman-coded LZ77 symbol stream with fixed
(`dynamicCodes = false`) or dynamic (`dynamicCodes = true`) code tables
(§4.6).  The bit-packed serialization is modelled at this symbol level. -/
inductive BlockData where
  | stored (bytes : List Nat)
  | huff (dynamicCodes : Bool) (syms : List LZSym)
deriving Repr, DecidableEq

/-- Modelled from the spec: one emitted block with its terminal flag bit
(§4.6). -/
structure DeflateBlock where
  final : Bool
  data : BlockData
deriving Repr, DecidableEq

/-- What a standards-compliant DEFLATE decoder reconstructs from one
block's content, given the previously decoded history. -/
def blockDecode (hist : List Nat) : BlockData → List Nat
  | .stored bytes => hist ++ bytes
  | .huff _ syms => lzDecode hist syms

/-- Decoded content of a block sequence: each block's content appended in
order, back-references resolving against everything decoded before. -/
def decodeBlocks (hist : List Nat) : List DeflateBlock → List Nat
  | [] => hist
  | b :: rest => decodeBlocks (blockDecode hist b.data) rest

/-- The fixed-Huffman cost model: DEFLATE's predefined static code
lengths (RFC 1951 §3.2.6). -/
def fixedCM : CostModel :=
  { litCost := fun b => if b < 144 then 8 else 9
    lenCost := fun l =>
      (if lengthSymbolOf l < 280 then 7 else 8) + lengthExtraBitsOf l
    distCost := fun d => 5 + distExtraBitsOf d }

/-- Estimated bit size of a stored block: header, byte-alignment
allowance, LEN/NLEN words, then the raw bytes. -/
def storedSizeEst (nbytes : Nat) : Nat := 40 + 8 * nbytes

/-- Estimated bit size of a fixed-Huffman block: 3-bit header, 7-bit
end-of-block code, and the symbols under the static code. -/
def fixedSizeEst (seq : List LZSym) : Nat := 10 + seqCostWith fixedCM seq

/-- Estimated bit size of a dynamic-Huffman block: header estimate plus
entropy-coded payload. -/
def dynSizeEst (seq : List LZSym) : Nat := 3 + blockCostEst seq

/-- Modelled from the spec: per-block encoding choice (§4.6) — a forced
hint is obeyed; Auto selects the smallest of stored / fixed / dynamic by
estimated bit cost, ties favoring the simpler encoding
(stored > fixed > dynamic). -/
def chooseBlock (hint : BlockTypeHint) (fin : Bool) (inp : List Nat)
    (s e : Nat) (seq : List LZSym) : DeflateBlock :=
  match hint with
  | .storedType => ⟨fin, .stored ((inp.drop s).take (e - s))⟩
  | .fixedType => ⟨fin, .huff false seq⟩
  | .dynamicType => ⟨fin, .huff true seq⟩
  | .auto =>
      let ss := storedSizeEst (e - s)
      let fs := fixedSizeEst seq
      let ds := dynSizeEst seq
      if ss ≤ fs ∧ ss ≤ ds then ⟨fin, .stored ((inp.drop s).take (e - s))⟩
      else if fs ≤ ds then ⟨fin, .huff false seq⟩
      else ⟨fin, .huff true seq⟩

/-- Modelled from the spec: the output-side state one call threads — the
emitted blocks (the output buffer), the bit cursor position within the
trailing byte, and the PRNG seed (§3 BitCursor, §9). -/
structure CompState where
  blocks : List DeflateBlock
  bitpos : Nat
  seed : Nat
deriving Repr, DecidableEq

/-- Estimated serialized bit size of a block, used to advance the bit
cursor; a stored block first pads to byte alignment (§4.6). -/
def blockBitSize (bp : Nat) : DeflateBlock → Nat
  | ⟨_, .stored bytes⟩ => 3 + (8 - (bp + 3) % 8) % 8 + 32 + 8 * bytes.length
  | ⟨_, .huff false syms⟩ => fixedSizeEst syms
  | ⟨_, .huff true syms⟩ => dynSizeEst syms

/-- The block one sub-range emits: refine for the configured iteration
count, then encode the best sequence found (§4.6, §4.7). -/
def emittedBlock (opts : ZopfliOptions) (inp : List Nat) (hint : BlockTypeHint)
    (fin : Bool) (s e seed : Nat) : DeflateBlock :=
  chooseBlock hint fin inp s e
    (refineIters inp s e seed (opts.numiterations.toNat - 1)).bestSeq

/-- Modelled from the spec: emit one sub-range — append the chosen block,
advance the bit cursor, and thread the PRNG seed (§4.6, §4.7). -/
def emitBlock (opts : ZopfliOptions) (inp : List Nat) (hint : BlockTypeHint)
    (fin : Bool) (s e : Nat) (st : CompState) : CompState :=
  let blk := emittedBlock opts inp hint fin s e st.seed
  ⟨st.blocks ++ [blk],
   (st.bitpos + blockBitSize st.bitpos blk) % 8,
   (refineIters inp s e st.seed (opts.numiterations.toNat - 1)).seed⟩

/-- Modelled from the spec: emit a list of consecutive sub-ranges left to
right, marking only the last block with the caller's final flag (§4.6). -/
def deflateRanges (opts : ZopfliOptions) (inp : List Nat) (hint : BlockTypeHint)
    (fin : Bool) : List (Nat × Nat) → CompState → CompState
  | [], st => st
  | r :: rest, st =>
      deflateRanges opts inp hint fin rest
        (emitBlock opts inp hint (fin && rest.isEmpty) r.1 r.2 st)

/-- Modelled from the spec: the block partition one call uses — the Block
Splitter's partition bounded by `blockSplittingMax` when splitting is
enabled, the whole range as a single block otherwise (§4.4, §4.7). -/
def partitionRanges (opts : ZopfliOptions) (inp : List Nat) (s e : Nat) :
    List (Nat × Nat) :=
  if opts.blocksplitting then blockSplit inp s e opts.blocksplittingmax.toNat
  else [(s, e)]

/-! ## Driver (spec §4.7, §6) -/

/-- Modelled from the spec: the Driver / public entry point
`ZopfliDeflatePart` (§4.7, §6) — validate the configuration, then the
range, then split the range into sub-blocks and run the
refine-and-emit pipeline over each, threading the output state. -/
def ZopfliDeflatePart (opts : ZopfliOptions) (hint : BlockTypeHint)
    (fin : Bool) (inp : List Nat) (instart inend : Nat) (st : CompState) :
    Except ZopfliError CompState :=
  if validOptions opts then
    if instart ≤ inend ∧ inend ≤ inp.length then
      .ok (deflateRanges opts inp hint fin
        (partitionRanges opts inp instart inend) st)
    else .error .InvalidRange
  else .error .InvalidConfig

/-- The spec's language-neutral name for the entry point (§6). -/
def compressPart := ZopfliDeflatePart

/-! ## Driver correctness lemmas -/

/-- The retained best sequence is always a faithful encoding of the
sub-range, whatever the iteration count. -/
theorem refineIters_best_ok (inp : List Nat) (s e seed : Nat)
    (hse : s ≤ e) (he : e ≤ inp.length) :
    ∀ n, okSeq inp s (refineIters inp s e seed n).bestSeq ∧
      seqLen (refineIters inp s e seed n).bestSeq = e - s := by
  intro n
  induction n with
  | zero => exact squeeze_ok inp initialCostModel s e hse he
  | succ n ih =>
    show okSeq inp s (refineStep inp s e (refineIters inp s e seed n)).bestSeq ∧
      seqLen (refineStep inp s e (refineIters inp s e seed n)).bestSeq = e - s
    unfold refineStep
    by_cases hc : blockCostEst (squeeze inp
        (costModelOf (refineIters inp s e seed n).stats) s e)
        < (refineIters inp s e seed n).bestCost
    · simp only [hc, if_true]
      exact squeeze_ok inp _ s e hse he
    · simp only [hc, if_false]
      exact ih

/-- Whatever encoding the emitter chooses, decoding the chosen block's
content extends the decoded prefix `inp[0:s]` to exactly `inp[0:e]`. -/
theorem chooseBlock_decode (hint : BlockTypeHint) (fin : Bool)
    (inp : List Nat) (s e : Nat) (seq : List LZSym)
    (hse : s ≤ e) (he : e ≤ inp.length)
    (hok : okSeq inp s seq) (hlen : seqLen seq = e - s) :
    blockDecode (inp.take s) (chooseBlock hint fin inp s e seq).data
      = inp.take e := by
  have hstored : inp.take s ++ (inp.drop s).take (e - s) = inp.take e := by
    rw [← List.take_add]
    congr 1
    omega
  have hhuff : lzDecode (inp.take s) seq = inp.take e := by
    rw [lzDecode_okSeq inp seq s hok, hlen]
    congr 1
    omega
  cases hint with
  | storedType => exact hstored
  | fixedType => exact hhuff
  | dynamicType => exact hhuff
  | auto =>
    simp only [chooseBlock]
    split_ifs with h1 h2
    · exact hstored
    · exact hhuff
    · exact hhuff

/-- The block emitted for a sub-range decodes the sub-range exactly. -/
theorem emittedBlock_decode (opts : ZopfliOptions) (inp : List Nat)
    (hint : BlockTypeHint) (fin : Bool) (s e seed : Nat)
    (hse : s ≤ e) (he : e ≤ inp.length) :
    blockDecode (inp.take s) (emittedBlock opts inp hint fin s e seed).data
      = inp.take e := by
  obtain ⟨hok, hlen⟩ := refineIters_best_ok inp s e seed hse he
    (opts.numiterations.toNat - 1)
  exact chooseBlock_decode hint fin inp s e _ hse he hok hlen

/-- Emitting a chain of consecutive in-bounds sub-ranges appends exactly
one block per sub-range, and the appended blocks decode to exactly the
covered byte range. -/
theorem deflateRanges_spec (opts : ZopfliOptions) (inp : List Nat)
    (hint : BlockTypeHint) (fin : Bool) :
    ∀ (ranges : List (Nat × Nat)) (s e : Nat) (st : CompState),
      Covers s e ranges → (∀ r ∈ ranges, r.1 ≤ r.2 ∧ r.2 ≤ inp.length) →
      ∃ nb : List DeflateBlock,
        (deflateRanges opts inp hint fin ranges st).blocks = st.blocks ++ nb ∧
        nb.length = ranges.length ∧
        decodeBlocks (inp.take s) nb = inp.take e := by
  intro ranges
  induction ranges with
  | nil =>
    intro s e st hcov _
    cases hcov
    exact ⟨[], by simp [deflateRanges], rfl, rfl⟩
  | cons r rest ih =>
    intro s e st hcov hin
    cases hcov with
    | cons _ m _ _ hcov' =>
      have hr := hin (s, m) (List.mem_cons_self _ _)
      obtain ⟨nb, hb, hl, hd⟩ := ih m e
        (emitBlock opts inp hint (fin && rest.isEmpty) s m st) hcov'
        (fun r' hr' => hin r' (List.mem_cons_of_mem _ hr'))
      refine ⟨emittedBlock opts inp hint (fin && rest.isEmpty) s m st.seed :: nb,
        ?_, ?_, ?_⟩
      · show (deflateRanges opts inp hint fin rest
            (emitBlock opts inp hint (fin && rest.isEmpty) s m st)).blocks = _
        rw [hb]
        show st.blocks ++ [_] ++ nb = _
        rw [List.append_assoc]
        rfl
      · simp [hl]
      · show decodeBlocks (blockDecode (inp.take s)
            (emittedBlock opts inp hint (fin && rest.isEmpty) s m st.seed).data) nb
            = inp.take e
        rw [emittedBlock_decode opts inp hint _ s m st.seed hr.1 hr.2]
        exact hd

/-- The partition the driver uses is a nonempty chain of in-bounds
sub-ranges covering `[s, e)`, of size at most the splitting budget. -/
theorem partitionRanges_spec (opts : ZopfliOptions) (inp : List Nat)
    (s e : Nat) (hse : s ≤ e) :
    Covers s e (partitionRanges opts inp s e) ∧
    (∀ r ∈ partitionRanges opts inp s e, s ≤ r.1 ∧ r.1 ≤ r.2 ∧ r.2 ≤ e) ∧
    partitionRanges opts inp s e ≠ [] ∧
    (partitionRanges opts inp s e).length ≤ max opts.blocksplittingmax.toNat 1 := by
  unfold partitionRanges
  by_cases hbs : opts.blocksplitting
  · rw [if_pos hbs]
    obtain ⟨hc, hb, hl⟩ := blockSplit_covers inp opts.blocksplittingmax.toNat s e hse
    exact ⟨hc, hb, blockSplit_ne_nil inp _ s e, hl⟩
  · rw [if_neg hbs]
    refine ⟨Covers.cons s e e [] (Covers.nil e), ?_, by simp, by simp⟩
    intro r hr
    simp only [List.mem_singleton] at hr
    subst hr
    exact ⟨Nat.le_refl s, hse, Nat.le_refl e⟩

/-- The optimal parse of an empty range is the empty sequence, under any
cost model. -/
theorem squeeze_empty (inp : List Nat) (cm : CostModel) (k : Nat) :
    squeeze inp cm k k = [] := by
  unfold squeeze
  rw [Nat.sub_self]
  rfl

/-- On an empty range every refinement iteration retains the empty
sequence. -/
theorem refineIters_empty (inp : List Nat) (k seed : Nat) :
    ∀ n, (refineIters inp k k seed n).bestSeq = [] ∧
      (refineIters inp k k seed n).bestCost = blockCostEst [] := by
  intro n
  induction n with
  | zero =>
    constructor
    · show (refineInit inp k k seed).bestSeq = []
      unfold refineInit
      rw [squeeze_empty]
    · show (refineInit inp k k seed).bestCost = blockCostEst []
      unfold refineInit
      rw [squeeze_empty]
  | succ n ih =>
    show (refineStep inp k k (refineIters inp k k seed n)).bestSeq = [] ∧
      (refineStep inp k k (refineIters inp k k seed n)).bestCost = blockCostEst []
    unfold refineStep
    rw [squeeze_empty]
    have hc : ¬ (blockCostEst [] < (refineIters inp k k seed n).bestCost) := by
      rw [ih.2]
      omega
    simp only [hc, if_false]
    exact ih

/-- On an empty range the Auto emitter chooses the minimal encoding: a
fixed-Huffman block with an empty symbol stream (just end-of-block). -/
theorem chooseBlock_auto_empty (fin : Bool) (inp : List Nat) (k : Nat) :
    chooseBlock .auto fin inp k k [] = ⟨fin, .huff false []⟩ := by
  simp only [chooseBlock, storedSizeEst, fixedSizeEst, dynSizeEst, blockCostEst,
    seqCostWith, Nat.sub_self]
  norm_num

/-- Emitting a split list of ranges in two runs sharing the state equals
emitting the concatenated list in one run, provided the second run is
nonempty (so the final flag lands on the same block). -/
theorem deflateRanges_append (opts : ZopfliOptions) (inp : List Nat)
    (hint : BlockTypeHint) (fin : Bool) :
    ∀ (P1 P2 : List (Nat × Nat)) (st : CompState), P2 ≠ [] →
      deflateRanges opts inp hint fin (P1 ++ P2) st
        = deflateRanges opts inp hint fin P2
            (deflateRanges opts inp hint false P1 st) := by
  intro P1
  induction P1 with
  | nil => intro P2 st _; rfl
  | cons r rest ih =>
    intro P2 st h2
    have hie : (rest ++ P2).isEmpty = false := by
      cases h : rest ++ P2 with
      | nil =>
        rw [List.append_eq_nil] at h
        exact absurd h.2 h2
      | cons a l => rfl
    show deflateRanges opts inp hint fin (rest ++ P2)
        (emitBlock opts inp hint (fin && (rest ++ P2).isEmpty) r.1 r.2 st) = _
    rw [hie, Bool.and_false]
    rw [ih P2 _ h2]
    rfl

/-! ## Claim theorems -/

/-- Claim C1: for every valid configuration, final flag, input buffer and
valid range `[start, end)`, `compressPart` (`ZopfliDeflatePart`) succeeds,
appends blocks to the output, and decoding those blocks with the modelled
standards-compliant DEFLATE decoder — starting from the already-decoded
window `inp[0:start]` — yields exactly `inp[0:end]`: the concatenation of
all emitted blocks' decoded content equals the input byte range
`inp[start:end]` (lossless round-trip). -/
theorem C1_roundtrip_lossless (opts : ZopfliOptions) (hint : BlockTypeHint)
    (fin : Bool) (inp : List Nat) (s e : Nat) (st : CompState)
    (hv : validOptions opts = true) (hse : s ≤ e) (he : e ≤ inp.length) :
    ∃ st' nb, ZopfliDeflatePart opts hint fin inp s e st = .ok st' ∧
      st'.blocks = st.blocks ++ nb ∧
      decodeBlocks (inp.take s) nb = inp.take e := by
  obtain ⟨hcov, hbnds, _, _⟩ := partitionRanges_spec opts inp s e hse
  obtain ⟨nb, hb, _, hd⟩ := deflateRanges_spec opts inp hint fin _ s e st hcov
    (fun r hr => ⟨(hbnds r hr).2.1, Nat.le_trans (hbnds r hr).2.2 he⟩)
  refine ⟨_, nb, ?_, hb, hd⟩
  unfold ZopfliDeflatePart
  rw [hv]
  simp only [if_true]
  rw [if_pos (⟨hse, he⟩ : s ≤ e ∧ e ≤ inp.length)]

/-- Claim C2: for every valid configuration, buffer, in-bounds offset `k`
and cursor state, `compressPart` on the empty range `[k, k)` succeeds,
and with the final flag set it appends exactly one minimal valid terminal
empty block (a final fixed-Huffman block whose symbol stream is empty —
just the end-of-block code). -/
theorem C2_empty_range (opts : ZopfliOptions) (inp : List Nat)
    (k : Nat) (st : CompState)
    (hv : validOptions opts = true) (hk : k ≤ inp.length) :
    ∃ st', ZopfliDeflatePart opts .auto true inp k k st = .ok st' ∧
      st'.blocks = st.blocks ++ [⟨true, .huff false []⟩] := by
  have hpart : partitionRanges opts inp k k = [(k, k)] := by
    unfold partitionRanges
    by_cases hbs : opts.blocksplitting
    · rw [if_pos hbs]
      exact blockSplit_empty_range inp _ k
    · rw [if_neg hbs]
  have hcall : ZopfliDeflatePart opts .auto true inp k k st
      = .ok (deflateRanges opts inp .auto true (partitionRanges opts inp k k) st) := by
    unfold ZopfliDeflatePart
    rw [hv]
    simp only [if_true]
    rw [if_pos (⟨Nat.le_refl k, hk⟩ : k ≤ k ∧ k ≤ inp.length)]
  rw [hcall, hpart]
  refine ⟨_, rfl, ?_⟩
  show (emitBlock opts inp .auto (true && List.isEmpty []) k k st).blocks
      = st.blocks ++ [⟨true, .huff false []⟩]
  show st.blocks ++ [emittedBlock opts inp .auto (true && List.isEmpty []) k k st.seed]
      = st.blocks ++ [⟨true, .huff false []⟩]
  congr 1
  unfold emittedBlock
  rw [(refineIters_empty inp k st.seed (opts.numiterations.toNat - 1)).1]
  exact congrArg (fun l => [l]) (chooseBlock_auto_empty true inp k)

/-- Claim C3: within one sub-range's refinement loop the retained best
estimated cost is non-increasing in the iteration number; after any
number of iterations the retained cost is a lower bound on, and is
attained by, the parse costs of all iterations seen so far; and the
sequence kept for final emission has exactly that minimal cost. -/
theorem C3_monotone_best (inp : List Nat) (s e seed N : Nat) :
    (∀ i j, i ≤ j → j ≤ N →
      (refineIters inp s e seed j).bestCost ≤ (refineIters inp s e seed i).bestCost)
    ∧ (∀ i, i ≤ N → (refineIters inp s e seed N).bestCost ≤ iterCost inp s e seed i)
    ∧ (∃ i, i ≤ N ∧ (refineIters inp s e seed N).bestCost = iterCost inp s e seed i)
    ∧ (refineIters inp s e seed N).bestCost
        = blockCostEst (refineIters inp s e seed N).bestSeq := by
  obtain ⟨h1, h2⟩ := refineIters_bestCost_min inp s e seed N
  refine ⟨fun i j hij _ => refineIters_bestCost_antitone inp s e seed i j hij,
    h1, ?_, refineIters_best_consistent inp s e seed N⟩
  obtain ⟨i, hi, heq⟩ := h2
  exact ⟨i, hi, heq⟩

/-- Claim C5: `compressPart` is deterministic — two invocations with
identical configuration, hint, final flag, buffer, range and input state
(which carries the output buffer, bit cursor and pseudo-randomness seed)
produce identical results, output and updated cursor included. -/
theorem C5_deterministic (opts : ZopfliOptions) (hint : BlockTypeHint)
    (fin : Bool) (inp : List Nat) (s e : Nat) (st1 st2 : CompState)
    (h : st1 = st2) :
    ZopfliDeflatePart opts hint fin inp s e st1
      = ZopfliDeflatePart opts hint fin inp s e st2 := by
  rw [h]

/-- Claim C6: splitting one `compressPart` call covering `[s, e)` into two
sequential calls covering `[s, m)` and `[m, e)` that share the state
(output buffer, bit cursor, seed) produces identical output to the single
call, whenever the two partitions concatenate to the single call's
partition; the first call carries final flag `false`, the second the
original flag. -/
theorem C6_split_compose (opts : ZopfliOptions) (hint : BlockTypeHint)
    (fin : Bool) (inp : List Nat) (s m e : Nat) (st : CompState)
    (hv : validOptions opts = true) (hsm : s ≤ m) (hme : m ≤ e)
    (he : e ≤ inp.length)
    (hpart : partitionRanges opts inp s m ++ partitionRanges opts inp m e
        = partitionRanges opts inp s e) :
    ∃ st1, ZopfliDeflatePart opts hint false inp s m st = .ok st1 ∧
      ZopfliDeflatePart opts hint fin inp m e st1
        = ZopfliDeflatePart opts hint fin inp s e st := by
  have h1 : ZopfliDeflatePart opts hint false inp s m st
      = .ok (deflateRanges opts inp hint false (partitionRanges opts inp s m) st) := by
    unfold ZopfliDeflatePart
    rw [hv]
    simp only [if_true]
    rw [if_pos (⟨hsm, by omega⟩ : s ≤ m ∧ m ≤ inp.length)]
  refine ⟨_, h1, ?_⟩
  have h2 : ZopfliDeflatePart opts hint fin inp m e
      (deflateRanges opts inp hint false (partitionRanges opts inp s m) st)
      = .ok (deflateRanges opts inp hint fin (partitionRanges opts inp m e)
          (deflateRanges opts inp hint false (partitionRanges opts inp s m) st)) := by
    unfold ZopfliDeflatePart
    rw [hv]
    simp only [if_true]
    rw [if_pos (⟨hme, he⟩ : m ≤ e ∧ e ≤ inp.length)]
  have h3 : ZopfliDeflatePart opts hint fin inp s e st
      = .ok (deflateRanges opts inp hint fin (partitionRanges opts inp s e) st) := by
    unfold ZopfliDeflatePart
    rw [hv]
    simp only [if_true]
    rw [if_pos (⟨by omega, he⟩ : s ≤ e ∧ e ≤ inp.length)]
  rw [h2, h3, ← hpart]
  rw [deflateRanges_append opts inp hint fin (partitionRanges opts inp s m)
    (partitionRanges opts inp m e) st (partitionRanges_spec opts inp m e hme).2.2.1]

/-- Claim C7: a successful `compressPart` call never emits more
sub-blocks than `blockSplittingMax`, and with block splitting disabled it
emits the whole range as exactly one block. -/
theorem C7_block_bound (opts : ZopfliOptions) (hint : BlockTypeHint)
    (fin : Bool) (inp : List Nat) (s e : Nat) (st : CompState)
    (hv : validOptions opts = true) (hse : s ≤ e) (he : e ≤ inp.length) :
    ∃ st' nb, ZopfliDeflatePart opts hint fin inp s e st = .ok st' ∧
      st'.blocks = st.blocks ++ nb ∧
      nb.length ≤ opts.blocksplittingmax.toNat ∧
      (opts.blocksplitting = false → nb.length = 1) := by
  obtain ⟨hcov, hbnds, _, hlen⟩ := partitionRanges_spec opts inp s e hse
  obtain ⟨nb, hb, hl, _⟩ := deflateRanges_spec opts inp hint fin _ s e st hcov
    (fun r hr => ⟨(hbnds r hr).2.1, Nat.le_trans (hbnds r hr).2.2 he⟩)
  have hmax : 1 ≤ opts.blocksplittingmax.toNat := by
    simp only [validOptions, Bool.and_eq_true, decide_eq_true_eq] at hv
    omega
  refine ⟨_, nb, ?_, hb, ?_, ?_⟩
  · unfold ZopfliDeflatePart
    rw [hv]
    simp only [if_true]
    rw [if_pos (⟨hse, he⟩ : s ≤ e ∧ e ≤ inp.length)]
  · rw [hl]
    omega
  · intro hoff
    rw [hl]
    unfold partitionRanges
    rw [hoff]
    rfl

/-- Claim C8: a configuration with a non-positive iteration count or
block limit makes `compressPart` fail fast with `InvalidConfig`, before
any compression work and with no output produced. -/
theorem C8_invalid_config (opts : ZopfliOptions) (hint : BlockTypeHint)
    (fin : Bool) (inp : List Nat) (s e : Nat) (st : CompState)
    (h : opts.numiterations ≤ 0 ∨ opts.blocksplittingmax ≤ 0) :
    ZopfliDeflatePart opts hint fin inp s e st = .error .InvalidConfig := by
  have hv : validOptions opts = false := by
    simp only [validOptions, Bool.and_eq_false_iff, decide_eq_false_iff_not]
    rcases h with h | h
    · left; omega
    · right; omega
  unfold ZopfliDeflatePart
  rw [hv]
  rfl

/-- Claim C9: a malformed range — start beyond end, or end beyond the
buffer — makes every `compressPart` call fail fast with an error and
produce no output; under a valid configuration that error is
`InvalidRange`. -/
theorem C9_invalid_range (opts : ZopfliOptions) (hint : BlockTypeHint)
    (fin : Bool) (inp : List Nat) (s e : Nat) (st : CompState)
    (h : e < s ∨ inp.length < e) :
    (∃ err, ZopfliDeflatePart opts hint fin inp s e st = .error err) ∧
    (validOptions opts = true →
      ZopfliDeflatePart opts hint fin inp s e st = .error .InvalidRange) := by
  have hrange : ¬ (s ≤ e ∧ e ≤ inp.length) := by omega
  by_cases hv : validOptions opts
  · have hcall : ZopfliDeflatePart opts hint fin inp s e st = .error .InvalidRange := by
      unfold ZopfliDeflatePart
      rw [hv]
      simp only [if_true]
      rw [if_neg hrange]
    exact ⟨⟨.InvalidRange, hcall⟩, fun _ => hcall⟩
  · have hv' : validOptions opts = false := by
      cases hb : validOptions opts
      · rfl
      · exact absurd hb hv
    have hcall : ZopfliDeflatePart opts hint fin inp s e st = .error .InvalidConfig := by
      unfold ZopfliDeflatePart
      rw [hv']
      rfl
    refine ⟨⟨.InvalidConfig, hcall⟩, fun hcontra => ?_⟩
    rw [hv'] at hcontra
    cases hcontra

/-- Claim C10: `ZopfliInitOptions` produces a default configuration that
already satisfies the engine's validity constraints, and a caller that
overrides individual fields with positive values — as the test drivers do
— never triggers `InvalidConfig` from `ZopfliDeflatePart`. -/
theorem C10_init_options_valid (a b : Int) (hint : BlockTypeHint)
    (fin : Bool) (inp : List Nat) (s e : Nat) (st : CompState)
    (ha : 1 ≤ a) (hb : 1 ≤ b) :
    validOptions ZopfliInitOptions = true ∧
    ZopfliDeflatePart
        { ZopfliInitOptions with numiterations := a, blocksplittingmax := b }
        hint fin inp s e st ≠ .error .InvalidConfig := by
  constructor
  · rfl
  · have hv : validOptions
        { ZopfliInitOptions with numiterations := a, blocksplittingmax := b } = true := by
      simp only [validOptions, Bool.and_eq_true, decide_eq_true_eq]
      exact ⟨ha, hb⟩
    unfold ZopfliDeflatePart
    rw [hv]
    simp only [if_true]
    by_cases hr : s ≤ e ∧ e ≤ inp.length
    · rw [if_pos hr]
      intro hcontra
      cases hcontra
    · rw [if_neg hr]
      intro hcontra
      cases hcontra

/-! ## Witnesses: each claim theorem applied at a concrete input -/

/-- Witness for C1 at a concrete configuration, buffer and range. -/
theorem C1_roundtrip_lossless_witness :
    ∃ st' nb, ZopfliDeflatePart
        { verbose := false, numiterations := 2, blocksplitting := true,
          blocksplittingmax := 3 }
        .auto true [1, 2, 3, 1, 2, 3] 0 6 ⟨[], 0, 1⟩ = .ok st' ∧
      st'.blocks = CompState.blocks ⟨[], 0, 1⟩ ++ nb ∧
      decodeBlocks (List.take 0 [1, 2, 3, 1, 2, 3]) nb
        = List.take 6 [1, 2, 3, 1, 2, 3] :=
  C1_roundtrip_lossless _ .auto true [1, 2, 3, 1, 2, 3] 0 6 ⟨[], 0, 1⟩
    (by decide) (by decide) (by decide)

/-- Witness for C2 at the `test_crash.c` driver's concrete input: the
one-byte buffer `[99]` with the empty range `[0, 0)`. -/
theorem C2_empty_range_witness :
    ∃ st', ZopfliDeflatePart ZopfliInitOptions .auto true [99] 0 0 ⟨[], 0, 0⟩
        = .ok st' ∧
      st'.blocks = CompState.blocks ⟨[], 0, 0⟩
        ++ [⟨true, .huff false []⟩] :=
  C2_empty_range ZopfliInitOptions [99] 0 ⟨[], 0, 0⟩ (by decide) (by decide)

/-- Witness for C3: monotonicity instantiated at concrete iterations. -/
theorem C3_monotone_best_witness :
    (refineIters [7, 7, 7, 7] 0 4 5 2).bestCost
      ≤ (refineIters [7, 7, 7, 7] 0 4 5 1).bestCost :=
  (C3_monotone_best [7, 7, 7, 7] 0 4 5 2).1 1 2 (by decide) (by decide)

/-- Witness for C5 at a concrete state. -/
theorem C5_deterministic_witness :
    ZopfliDeflatePart ZopfliInitOptions .auto true [1, 2] 0 2 ⟨[], 0, 42⟩
      = ZopfliDeflatePart ZopfliInitOptions .auto true [1, 2] 0 2 ⟨[], 0, 42⟩ :=
  C5_deterministic ZopfliInitOptions .auto true [1, 2] 0 2 ⟨[], 0, 42⟩ ⟨[], 0, 42⟩ rfl

/-- Witness for C6 on a two-tone buffer the splitter genuinely splits at
the midpoint, so the two-call and single-call partitions coincide. -/
theorem C6_split_compose_witness :
    ∃ st1, ZopfliDeflatePart ZopfliInitOptions .auto false
        (List.replicate 10 0 ++ List.replicate 10 1) 0 10 ⟨[], 0, 9⟩ = .ok st1 ∧
      ZopfliDeflatePart ZopfliInitOptions .auto true
        (List.replicate 10 0 ++ List.replicate 10 1) 10 20 st1
        = ZopfliDeflatePart ZopfliInitOptions .auto true
            (List.replicate 10 0 ++ List.replicate 10 1) 0 20 ⟨[], 0, 9⟩ :=
  C6_split_compose ZopfliInitOptions .auto true
    (List.replicate 10 0 ++ List.replicate 10 1) 0 10 20 ⟨[], 0, 9⟩
    (by decide) (by decide) (by decide) (by decide) (by decide)

/-- Witness for C7 at a concrete configuration and buffer. -/
theorem C7_block_bound_witness :
    ∃ st' nb, ZopfliDeflatePart
        { verbose := false, numiterations := 1, blocksplitting := false,
          blocksplittingmax := 3 }
        .auto true [4, 5, 6] 0 3 ⟨[], 0, 0⟩ = .ok st' ∧
      st'.blocks = CompState.blocks ⟨[], 0, 0⟩ ++ nb ∧
      nb.length ≤ Int.toNat 3 ∧
      (false = false → nb.length = 1) :=
  C7_block_bound _ .auto true [4, 5, 6] 0 3 ⟨[], 0, 0⟩
    (by decide) (by decide) (by decide)

/-- Witness for C8 at a zero iteration count. -/
theorem C8_invalid_config_witness :
    ZopfliDeflatePart
        { verbose := false, numiterations := 0, blocksplitting := true,
          blocksplittingmax := 3 }
        .auto true [1] 0 1 ⟨[], 0, 0⟩ = .error .InvalidConfig :=
  C8_invalid_config _ .auto true [1] 0 1 ⟨[], 0, 0⟩ (Or.inl (by decide))

/-- Witness for C9 at a reversed range. -/
theorem C9_invalid_range_witness :
    (∃ err, ZopfliDeflatePart ZopfliInitOptions .auto true [1, 2] 2 1 ⟨[], 0, 0⟩
        = .error err) ∧
    (validOptions ZopfliInitOptions = true →
      ZopfliDeflatePart ZopfliInitOptions .auto true [1, 2] 2 1 ⟨[], 0, 0⟩
        = .error .InvalidRange) :=
  C9_invalid_range ZopfliInitOptions .auto true [1, 2] 2 1 ⟨[], 0, 0⟩
    (Or.inl (by decide))

/-- Witness for C10 at the `debug_test.c` driver's overrides
(`numiterations = 1`, `blocksplittingmax = 3`). -/
theorem C10_init_options_valid_witness :
    validOptions ZopfliInitOptions = true ∧
    ZopfliDeflatePart
        { ZopfliInitOptions with numiterations := 1, blocksplittingmax := 3 }
        .auto true [189, 189, 43] 0 3 ⟨[], 0, 0⟩ ≠ .error .InvalidConfig :=
  C10_init_options_valid 1 3 .auto true [189, 189, 43] 0 3 ⟨[], 0, 0⟩
    (by decide) (by decide)

/-! ## Huffman code builder (spec §4.5) -/

/-- A Huffman tree over weighted symbols. -/
inductive HTree where
  | leaf (w sym : Nat)
  | node (w : Nat) (l r : HTree)
deriving Repr, DecidableEq

/-- Total weight of a tree. -/
def HTree.weight : HTree → Nat
  | .leaf wt _ => wt
  | .node wt _ _ => wt

/-- Remove a minimum-weight tree from a forest (first minimum wins). -/
def extractMin : List HTree → Option (HTree × List HTree)
  | [] => none
  | t :: rest =>
      match extractMin rest with
      | none => some (t, [])
      | some (m, others) =>
          if t.weight ≤ m.weight then some (t, rest) else some (m, t :: others)

/-- Modelled from the spec: the standard minimum-redundancy construction
(§4.5a) — repeatedly merge the two lowest-weight trees until one
remains. -/
def mergeForest : Nat → List HTree → List HTree
  | 0, f => f
  | fuel + 1, f =>
      match extractMin f with
      | none => f
      | some (t1, rest1) =>
          match extractMin rest1 with
          | none => f
          | some (t2, rest2) =>
              mergeForest fuel (HTree.node (t1.weight + t2.weight) t1 t2 :: rest2)

/-- The Huffman tree of a frequency table: one leaf per symbol of nonzero
frequency, merged bottom-up; `none` when no symbol occurs. -/
def buildTree (freqs : List Nat) : Option HTree :=
  let forest := (List.range freqs.length).filterMap (fun s =>
    if 0 < freqs.getD s 0 then some (HTree.leaf (freqs.getD s 0) s) else none)
  match mergeForest forest.length forest with
  | [t] => some t
  | _ => none

/-- Leaf depths of a tree, as `(symbol, depth)` pairs; a lone root leaf
still gets code length 1, as DEFLATE requires a representable code. -/
def treeLengths : HTree → Nat → List (Nat × Nat)
  | .leaf _ sym, d => [(sym, max 1 d)]
  | .node _ l r, d => treeLengths l (d + 1) ++ treeLengths r (d + 1)

/-- Code length per symbol derived from the Huffman tree (0 = symbol
unused). -/
def lengthsFromTree (freqs : List Nat) : List Nat :=
  match buildTree freqs with
  | none => List.replicate freqs.length 0
  | some t =>
      let pairs := treeLengths t 0
      (List.range freqs.length).map (fun s =>
        match pairs.find? (fun p => p.1 == s) with
        | some p => p.2
        | none => 0)

/-! ### Length limiting (spec §4.5b) -/

/-- Clamp all code lengths to the ceiling. -/
def clampLens (maxB : Nat) (lens : List Nat) : List Nat :=
  lens.map (fun l => min l maxB)

/-- Scaled Kraft weight of one code length: an assigned symbol of length
`l` contributes `2^(maxB - l)`, an unassigned symbol nothing. -/
def kWeight (maxB l : Nat) : Nat := if l = 0 then 0 else 2 ^ (maxB - l)

/-- The Kraft sum scaled by `2^maxB`; the Kraft inequality is
`kraftScaled ≤ 2^maxB`. -/
def kraftScaled (maxB : Nat) (lens : List Nat) : Nat :=
  (lens.map (kWeight maxB)).sum

/-- Index of some symbol whose length may be deepened (assigned and
strictly below the ceiling). -/
def findIncIdx (maxB : Nat) (lens : List Nat) : Option Nat :=
  (List.range lens.length).find? (fun i =>
    decide (1 ≤ lens.getD i 0) && decide (lens.getD i 0 < maxB))

/-- Modelled from the spec: redistribution of length mass (§4.5b) —
while the scaled Kraft sum exceeds `2^maxB` (a consequence of clamping
over-long codes), deepen some assigned code below the ceiling; each step
strictly decreases the sum, so fuel equal to the initial sum suffices. -/
def fixupLens (maxB : Nat) : Nat → List Nat → List Nat
  | 0, lens => lens
  | fuel + 1, lens =>
      if kraftScaled maxB lens ≤ 2 ^ maxB then lens
      else
        match findIncIdx maxB lens with
        | none => lens
        | some i => fixupLens maxB fuel (lens.set i (lens.getD i 0 + 1))

/-- Modelled from the spec: enforce the maximum code length (§4.5b) by
clamping and redistributing, keeping the Kraft inequality. -/
def limitLens (maxB : Nat) (lens : List Nat) : List Nat :=
  fixupLens maxB (kraftScaled maxB (clampLens maxB lens)) (clampLens maxB lens)

/-- Updating one list entry shifts a mapped sum by the images of the old
and new values (additive form, safe for `Nat`). -/
theorem sum_map_set (f : Nat → Nat) :
    ∀ (l : List Nat) (i v : Nat), i < l.length →
      ((l.set i v).map f).sum + f (l.getD i 0) = (l.map f).sum + f v := by
  intro l
  induction l with
  | nil => intro i v h; simp at h
  | cons x rest ih =>
    intro i v h
    cases i with
    | zero =>
      simp only [List.set, List.map_cons, List.sum_cons, List.getD_cons_zero]
      omega
    | succ i' =>
      simp only [List.set, List.map_cons, List.sum_cons, List.getD_cons_succ]
      have := ih i' v (by simpa using h)
      omega

/-- A mapped sum of entries each weighing at most one is at most the
length. -/
theorem sum_map_le_length (f : Nat → Nat) :
    ∀ xs : List Nat, (∀ x ∈ xs, f x ≤ 1) → (xs.map f).sum ≤ xs.length := by
  intro xs
  induction xs with
  | nil => simp
  | cons hd tl ih =>
    intro hb
    simp only [List.map_cons, List.sum_cons, List.length_cons]
    have h1 := hb hd (List.mem_cons_self hd tl)
    have h2 := ih (fun y hy => hb y (List.mem_cons_of_mem hd hy))
    omega

/-- What a successful `findIncIdx` guarantees. -/
theorem findIncIdx_some (maxB : Nat) (lens : List Nat) (i : Nat)
    (h : findIncIdx maxB lens = some i) :
    i < lens.length ∧ 1 ≤ lens.getD i 0 ∧ lens.getD i 0 < maxB := by
  unfold findIncIdx at h
  have hmem := List.mem_of_find?_eq_some h
  have hp := List.find?_some h
  simp only [List.mem_range] at hmem
  simp only [Bool.and_eq_true, decide_eq_true_eq] at hp
  exact ⟨hmem, hp.1, hp.2⟩

/-- When no entry can be deepened, every entry is unassigned or at the
ceiling. -/
theorem findIncIdx_none (maxB : Nat) (lens : List Nat)
    (h : findIncIdx maxB lens = none) :
    ∀ i, i < lens.length → lens.getD i 0 = 0 ∨ maxB ≤ lens.getD i 0 := by
  intro i hi
  unfold findIncIdx at h
  have := List.find?_eq_none.mp h i (List.mem_range.mpr hi)
  simp only [Bool.and_eq_true, decide_eq_true_eq, not_and] at this
  omega

/-- The redistribution loop keeps all lengths at or below the ceiling,
preserves the table size, and — given fuel at least the initial excess —
drives the scaled Kraft sum below `2^maxB`. -/
theorem fixupLens_spec (maxB : Nat) :
    ∀ (fuel : Nat) (lens : List Nat),
      (∀ x ∈ lens, x ≤ maxB) → lens.length ≤ 2 ^ maxB →
      kraftScaled maxB lens ≤ 2 ^ maxB + fuel →
      (∀ x ∈ fixupLens maxB fuel lens, x ≤ maxB) ∧
      kraftScaled maxB (fixupLens maxB fuel lens) ≤ 2 ^ maxB ∧
      (fixupLens maxB fuel lens).length = lens.length := by
  intro fuel
  induction fuel with
  | zero =>
    intro lens hle hlen hk
    exact ⟨hle, by simpa using hk, rfl⟩
  | succ fuel ih =>
    intro lens hle hlen hk
    by_cases hdone : kraftScaled maxB lens ≤ 2 ^ maxB
    · simp only [fixupLens, if_pos hdone]
      exact ⟨hle, hdone, by simp⟩
    · simp only [fixupLens, if_neg hdone]
      cases hfind : findIncIdx maxB lens with
      | none =>
        -- impossible: every entry weighs at most 1, so the sum is below 2^maxB
        exfalso
        apply hdone
        have hlew : ∀ x ∈ lens, kWeight maxB x ≤ 1 := by
          intro x hx
          obtain ⟨j, hj, hget⟩ := List.getElem_of_mem hx
          have hgd : lens.getD j 0 = x := by
            rw [List.getD_eq_getElem lens 0 hj, hget]
          have := findIncIdx_none maxB lens hfind j hj
          rw [hgd] at this
          have hxle := hle x hx
          unfold kWeight
          rcases this with h0 | hceil
          · rw [if_pos h0]
            omega
          · have hxeq : x = maxB := by omega
            rw [hxeq]
            by_cases hmb : maxB = 0
            · rw [if_pos hmb]; omega
            · rw [if_neg hmb, Nat.sub_self]
              omega
        calc kraftScaled maxB lens ≤ lens.length := sum_map_le_length _ lens hlew
          _ ≤ 2 ^ maxB := hlen
      | some i =>
        obtain ⟨hi, h1, h2⟩ := findIncIdx_some maxB lens i hfind
        set l0 := lens.getD i 0 with hl0
        have hset := sum_map_set (kWeight maxB) lens i (l0 + 1) hi
        have hw0 : kWeight maxB l0 = 2 ^ (maxB - l0) := by
          unfold kWeight
          rw [if_neg (by omega)]
        have hw1 : kWeight maxB (l0 + 1) = 2 ^ (maxB - l0 - 1) := by
          unfold kWeight
          rw [if_neg (by omega)]
          exact congrArg (2 ^ ·) (by omega)
        have hpow : 2 ^ (maxB - l0) = 2 * 2 ^ (maxB - l0 - 1) := by
          rw [← Nat.pow_succ']
          congr 1
          omega
        have hpos : 1 ≤ 2 ^ (maxB - l0 - 1) := Nat.one_le_two_pow
        have hknew : kraftScaled maxB (lens.set i (l0 + 1)) ≤ 2 ^ maxB + fuel := by
          unfold kraftScaled at hset hk ⊢
          rw [hw0, hw1] at hset
          omega
        have hlenew : ∀ x ∈ lens.set i (l0 + 1), x ≤ maxB := by
          intro x hx
          rcases List.mem_or_eq_of_mem_set hx with hx' | hx'
          · exact hle x hx'
          · omega
        have hlennew : (lens.set i (l0 + 1)).length ≤ 2 ^ maxB := by
          rw [List.length_set]
          exact hlen
        obtain ⟨ha, hb, hc⟩ := ih (lens.set i (l0 + 1)) hlenew hlennew hknew
        refine ⟨ha, hb, ?_⟩
        rw [hc, List.length_set]

/-- The length limiter keeps every length at or below the ceiling and
establishes the Kraft inequality, for any alphabet of at most `2^maxB`
symbols. -/
theorem limitLens_spec (maxB : Nat) (lens : List Nat)
    (hn : lens.length ≤ 2 ^ maxB) :
    (∀ x ∈ limitLens maxB lens, x ≤ maxB) ∧
    kraftScaled maxB (limitLens maxB lens) ≤ 2 ^ maxB ∧
    (limitLens maxB lens).length = lens.length := by
  have hclamp : ∀ x ∈ clampLens maxB lens, x ≤ maxB := by
    intro x hx
    simp only [clampLens, List.mem_map] at hx
    obtain ⟨y, _, hy⟩ := hx
    omega
  have hclen : (clampLens maxB lens).length = lens.length := by
    simp [clampLens]
  obtain ⟨ha, hb, hc⟩ := fixupLens_spec maxB
    (kraftScaled maxB (clampLens maxB lens)) (clampLens maxB lens)
    hclamp (by omega) (by omega)
  exact ⟨ha, hb, by rw [limitLens] at *; omega⟩

/-! ### Canonical code assignment (spec §4.5c) -/

/-- Indices (from `i` upward) of entries equal to `l`. -/
def symsOfLenAux (l : Nat) : List Nat → Nat → List Nat
  | [], _ => []
  | x :: rest, i =>
      if x = l then i :: symsOfLenAux l rest (i + 1)
      else symsOfLenAux l rest (i + 1)

/-- Symbols whose assigned code length is `l`, in symbol order. -/
def symsOfLen (lens : List Nat) (l : Nat) : List Nat :=
  symsOfLenAux l lens 0

/-- All assigned symbols as `(symbol, length)` pairs, grouped by code
length `1 … L` in increasing length order, symbols in index order within
a group — the canonical ordering of RFC 1951 §3.2.2. -/
def orderedSymsUpTo (lens : List Nat) : Nat → List (Nat × Nat)
  | 0 => []
  | l + 1 => orderedSymsUpTo lens l
      ++ (symsOfLen lens (l + 1)).map (fun s => (s, l + 1))

/-- Walk the ordered symbols keeping a scaled cursor `c`: the symbol of
length `l` occupies the scaled interval `[c, c + 2^(maxB - l))`, and its
codeword value is `c / 2^(maxB - l)`.  This is the interval form of the
canonical first-code recurrence. -/
def canonAux (maxB : Nat) : List (Nat × Nat) → Nat → List (Nat × Nat × Nat)
  | [], _ => []
  | (s, l) :: rest, c => (s, l, c) :: canonAux maxB rest (c + 2 ^ (maxB - l))

/-- One assigned codeword: symbol, code length in bits, and the numeric
codeword value (MSB-first reading of the `len` code bits). -/
structure HuffCode where
  sym : Nat
  len : Nat
  code : Nat
deriving Repr, DecidableEq

/-- Modelled from the spec: canonical code assignment (§4.5c) —
deterministic codes from the code lengths alone, lexicographic within
equal-length groups ordered by symbol index. -/
def assignCodes (maxB : Nat) (lens : List Nat) : List HuffCode :=
  (canonAux maxB (orderedSymsUpTo lens maxB) 0).map
    (fun t => ⟨t.1, t.2.1, t.2.2 / 2 ^ (maxB - t.2.1)⟩)

/-- Modelled from the spec: the Huffman Code Builder (§4.5) —
minimum-redundancy code lengths from the frequency table, limited to 15
bits with Kraft-preserving redistribution, then canonically assigned. -/
def buildHuffCode (freqs : List Nat) : List HuffCode :=
  assignCodes 15 (limitLens 15 (lengthsFromTree freqs))

/-- Numeric form of the MSB-first bitstring prefix relation: the `len₁`
code bits of `c1` are a prefix of the `len₂` code bits of `c2` iff
`len₁ ≤ len₂` and dropping the low `len₂ - len₁` bits of `c2.code` gives
`c1.code`. -/
def numPrefOf (c1 c2 : HuffCode) : Prop :=
  c1.len ≤ c2.len ∧ c2.code / 2 ^ (c2.len - c1.len) = c1.code

/-- Total scaled width of a symbol group list. -/
def totalWidth (maxB : Nat) (syms : List (Nat × Nat)) : Nat :=
  (syms.map (fun p => 2 ^ (maxB - p.2))).sum

/-- Every ordered symbol's length lies in `1 … L`. -/
theorem orderedSymsUpTo_mem (lens : List Nat) :
    ∀ (L : Nat), ∀ p ∈ orderedSymsUpTo lens L, 1 ≤ p.2 ∧ p.2 ≤ L := by
  intro L
  induction L with
  | zero => intro p hp; simp [orderedSymsUpTo] at hp
  | succ L ih =>
    intro p hp
    simp only [orderedSymsUpTo, List.mem_append] at hp
    rcases hp with hp | hp
    · have := ih p hp
      omega
    · simp only [List.mem_map] at hp
      obtain ⟨s, _, rfl⟩ := hp
      omega

/-- The ordered symbols are sorted by non-decreasing code length. -/
theorem orderedSymsUpTo_sorted (lens : List Nat) :
    ∀ (L : Nat), List.Pairwise (fun a b => a.2 ≤ b.2) (orderedSymsUpTo lens L) := by
  intro L
  induction L with
  | zero => exact List.Pairwise.nil
  | succ L ih =>
    refine List.pairwise_append.mpr ⟨ih, ?_, ?_⟩
    · exact List.pairwise_map.mpr
        (List.pairwise_of_forall (fun _ _ => Nat.le_refl (L + 1)))
    · intro a ha b hb
      have h1 := orderedSymsUpTo_mem lens L a ha
      simp only [List.mem_map] at hb
      obtain ⟨s, _, rfl⟩ := hb
      omega

/-- Stripping the assigned starts recovers the ordered symbols. -/
theorem canonAux_proj (maxB : Nat) :
    ∀ (syms : List (Nat × Nat)) (c : Nat),
      (canonAux maxB syms c).map (fun t => (t.1, t.2.1)) = syms := by
  intro syms
  induction syms with
  | nil => intro c; rfl
  | cons p rest ih =>
    intro c
    cases p with
    | mk s l =>
      show ((s, l, c) :: canonAux maxB rest (c + 2 ^ (maxB - l))).map _ = _
      simp only [List.map_cons, ih]

/-- Every assigned interval starts at or after the cursor and ends within
the cursor plus the total remaining width. -/
theorem canonAux_bounds (maxB : Nat) :
    ∀ (syms : List (Nat × Nat)) (c : Nat),
      ∀ t ∈ canonAux maxB syms c,
        c ≤ t.2.2 ∧ t.2.2 + 2 ^ (maxB - t.2.1) ≤ c + totalWidth maxB syms := by
  intro syms
  induction syms with
  | nil => intro c t ht; simp [canonAux] at ht
  | cons p rest ih =>
    intro c t ht
    cases p with
    | mk s l =>
      simp only [canonAux, List.mem_cons] at ht
      have hw : totalWidth maxB ((s, l) :: rest)
          = 2 ^ (maxB - l) + totalWidth maxB rest := by
        simp [totalWidth]
      rcases ht with rfl | ht
      · refine ⟨Nat.le_refl c, ?_⟩
        show c + 2 ^ (maxB - l) ≤ c + totalWidth maxB ((s, l) :: rest)
        omega
      · obtain ⟨ih1, ih2⟩ := ih (c + 2 ^ (maxB - l)) t ht
        constructor
        · exact Nat.le_trans (Nat.le_add_right c _) ih1
        · rw [hw]
          omega

/-- When the ordered symbols are length-sorted and the cursor is aligned
to every upcoming width, each assigned start is aligned to its own
width. -/
theorem canonAux_div (maxB : Nat) :
    ∀ (syms : List (Nat × Nat)) (c : Nat),
      List.Pairwise (fun a b => a.2 ≤ b.2) syms →
      (∀ p ∈ syms, 2 ^ (maxB - p.2) ∣ c) →
      ∀ t ∈ canonAux maxB syms c, 2 ^ (maxB - t.2.1) ∣ t.2.2 := by
  intro syms
  induction syms with
  | nil => intro c _ _ t ht; simp [canonAux] at ht
  | cons p rest ih =>
    intro c hsort hdvd t ht
    cases p with
    | mk s l =>
      simp only [canonAux, List.mem_cons] at ht
      rcases ht with rfl | ht
      · exact hdvd (s, l) (List.mem_cons_self _ _)
      · have hsort' := List.Pairwise.sublist (List.sublist_cons_self (s, l) rest) hsort
        have hhead := List.pairwise_cons.mp hsort
        refine ih (c + 2 ^ (maxB - l)) hhead.2 ?_ t ht
        intro p hp
        have hle : l ≤ p.2 := hhead.1 p hp
        have h1 : 2 ^ (maxB - p.2) ∣ c := hdvd p (List.mem_cons_of_mem _ hp)
        have h2 : 2 ^ (maxB - p.2) ∣ 2 ^ (maxB - l) :=
          Nat.pow_dvd_pow 2 (by omega)
        exact Nat.dvd_add h1 h2

/-- Assigned intervals are pairwise disjoint, in list order. -/
theorem canonAux_ordered (maxB : Nat) :
    ∀ (syms : List (Nat × Nat)) (c : Nat),
      List.Pairwise (fun t1 t2 => t1.2.2 + 2 ^ (maxB - t1.2.1) ≤ t2.2.2)
        (canonAux maxB syms c) := by
  intro syms
  induction syms with
  | nil => intro c; exact List.Pairwise.nil
  | cons p rest ih =>
    intro c
    cases p with
    | mk s l =>
      show List.Pairwise _ ((s, l, c) :: canonAux maxB rest (c + 2 ^ (maxB - l)))
      refine List.pairwise_cons.mpr ⟨?_, ih (c + 2 ^ (maxB - l))⟩
      intro t ht
      exact (canonAux_bounds maxB rest (c + 2 ^ (maxB - l)) t ht).1

/-! ### Transfer: the codes' Kraft sum equals the length table's -/

/-- Sums of pointwise-equal maps agree. -/
theorem sum_map_congr (f g : Nat → Nat) :
    ∀ l : List Nat, (∀ x ∈ l, f x = g x) → (l.map f).sum = (l.map g).sum := by
  intro l
  induction l with
  | nil => intro _; rfl
  | cons x rest ih =>
    intro h
    simp only [List.map_cons, List.sum_cons]
    rw [h x (List.mem_cons_self x rest), ih (fun y hy => h y (List.mem_cons_of_mem x hy))]

/-- A mapped sum of pointwise sums splits. -/
theorem sum_map_add (f g : Nat → Nat) :
    ∀ l : List Nat, (l.map (fun x => f x + g x)).sum = (l.map f).sum + (l.map g).sum := by
  intro l
  induction l with
  | nil => rfl
  | cons x rest ih =>
    simp only [List.map_cons, List.sum_cons, ih]
    omega

/-- An indicator sum counts occurrences. -/
theorem sum_map_indicator (v c : Nat) :
    ∀ l : List Nat, (l.map (fun x => if x = v then c else 0)).sum = l.count v * c := by
  intro l
  induction l with
  | nil => simp
  | cons x rest ih =>
    simp only [List.map_cons, List.sum_cons, ih, List.count_cons]
    by_cases hx : x = v
    · rw [if_pos hx, if_pos (by simp [hx] : (x == v) = true), Nat.add_mul, Nat.one_mul]
      omega
    · rw [if_neg hx, if_neg (by simp [hx] : ¬ ((x == v) = true)), Nat.add_zero,
        Nat.zero_add]

/-- A constant map sums to length times the constant. -/
theorem sum_map_const {α : Type} (c : Nat) :
    ∀ l : List α, (l.map (fun _ => c)).sum = l.length * c := by
  intro l
  induction l with
  | nil => simp
  | cons x rest ih =>
    simp only [List.map_cons, List.sum_cons, ih, List.length_cons]
    ring

/-- The group of one length has one member per occurrence of that length
in the table. -/
theorem symsOfLenAux_length (l : Nat) :
    ∀ (lens : List Nat) (i : Nat), (symsOfLenAux l lens i).length = lens.count l := by
  intro lens
  induction lens with
  | nil => intro i; simp [symsOfLenAux]
  | cons x rest ih =>
    intro i
    by_cases hx : x = l
    · simp only [symsOfLenAux, if_pos hx, List.length_cons, List.count_cons,
        if_pos (by simp [hx] : (x == l) = true)]
      rw [ih]
    · simp only [symsOfLenAux, if_neg hx, List.count_cons,
        if_neg (by simp [hx] : ¬ ((x == l) = true)), Nat.add_zero]
      exact ih (i + 1)

/-- Total width splits over appended group lists. -/
theorem totalWidth_append (maxB : Nat) (a b : List (Nat × Nat)) :
    totalWidth maxB (a ++ b) = totalWidth maxB a + totalWidth maxB b := by
  simp [totalWidth]

/-- Scaled width of the ordered symbols up to length `L`, as a sum over
the length table. -/
theorem totalWidth_orderedSyms (maxB : Nat) (lens : List Nat) :
    ∀ L, totalWidth maxB (orderedSymsUpTo lens L)
      = (lens.map (fun x => if 1 ≤ x ∧ x ≤ L then 2 ^ (maxB - x) else 0)).sum := by
  intro L
  induction L with
  | zero =>
    show totalWidth maxB [] = _
    have : (lens.map (fun x => if 1 ≤ x ∧ x ≤ 0 then 2 ^ (maxB - x) else 0)).sum
        = (lens.map (fun _ => 0)).sum := by
      apply sum_map_congr
      intro x _
      rw [if_neg (by omega)]
    rw [this, sum_map_const]
    simp [totalWidth]
  | succ L ih =>
    show totalWidth maxB (orderedSymsUpTo lens L
        ++ (symsOfLen lens (L + 1)).map (fun s => (s, L + 1))) = _
    rw [totalWidth_append, ih]
    have hgrp : totalWidth maxB ((symsOfLen lens (L + 1)).map (fun s => (s, L + 1)))
        = lens.count (L + 1) * 2 ^ (maxB - (L + 1)) := by
      unfold totalWidth
      rw [List.map_map]
      show ((symsOfLen lens (L + 1)).map (fun _ => 2 ^ (maxB - (L + 1)))).sum = _
      rw [sum_map_const]
      unfold symsOfLen
      rw [symsOfLenAux_length]
    rw [hgrp]
    have hsplit : (lens.map (fun x => if 1 ≤ x ∧ x ≤ L + 1 then 2 ^ (maxB - x) else 0)).sum
        = (lens.map (fun x => (if 1 ≤ x ∧ x ≤ L then 2 ^ (maxB - x) else 0)
            + (if x = L + 1 then 2 ^ (maxB - x) else 0))).sum := by
      apply sum_map_congr
      intro x _
      by_cases h1 : 1 ≤ x ∧ x ≤ L
      · rw [if_pos (by omega), if_pos h1, if_neg (by omega)]
        omega
      · by_cases h2 : x = L + 1
        · rw [if_pos (by omega), if_neg h1, if_pos h2]
          omega
        · rw [if_neg (by omega), if_neg h1, if_neg h2]
    have hind : (lens.map (fun x => if x = L + 1 then 2 ^ (maxB - x) else 0)).sum
        = (lens.map (fun x => if x = L + 1 then 2 ^ (maxB - (L + 1)) else 0)).sum := by
      apply sum_map_congr
      intro x _
      by_cases h2 : x = L + 1
      · rw [if_pos h2, if_pos h2, h2]
      · rw [if_neg h2, if_neg h2]
    rw [hsplit, sum_map_add, hind, sum_map_indicator]

/-- When every length respects the ceiling, the ordered symbols' total
scaled width is exactly the table's scaled Kraft sum. -/
theorem totalWidth_kraft (maxB : Nat) (lens : List Nat)
    (h : ∀ x ∈ lens, x ≤ maxB) :
    totalWidth maxB (orderedSymsUpTo lens maxB) = kraftScaled maxB lens := by
  rw [totalWidth_orderedSyms]
  unfold kraftScaled
  apply sum_map_congr
  intro x hx
  have hxle := h x hx
  unfold kWeight
  by_cases h0 : x = 0
  · rw [if_neg (by omega), if_pos h0]
  · rw [if_pos (by omega), if_neg h0]

/-! ### Validity of the assigned codes -/

/-- The assigned codes' scaled Kraft sum equals the length table's. -/
theorem assignCodes_kraft (maxB : Nat) (lens : List Nat)
    (h : ∀ x ∈ lens, x ≤ maxB) :
    ((assignCodes maxB lens).map (fun c => 2 ^ (maxB - c.len))).sum
      = kraftScaled maxB lens := by
  unfold assignCodes
  rw [List.map_map]
  have hcg : ((canonAux maxB (orderedSymsUpTo lens maxB) 0).map
      ((fun c => 2 ^ (maxB - c.len))
        ∘ (fun t : Nat × Nat × Nat =>
            (⟨t.1, t.2.1, t.2.2 / 2 ^ (maxB - t.2.1)⟩ : HuffCode)))).sum
      = ((canonAux maxB (orderedSymsUpTo lens maxB) 0).map
          ((fun p : Nat × Nat => 2 ^ (maxB - p.2))
            ∘ (fun t : Nat × Nat × Nat => (t.1, t.2.1)))).sum := rfl
  rw [hcg, ← List.map_map, canonAux_proj]
  exact totalWidth_kraft maxB lens h

/-- Every assigned code's symbol/length pair comes from the ordered
symbol list. -/
theorem assignCodes_mem (maxB : Nat) (lens : List Nat) :
    ∀ c ∈ assignCodes maxB lens, (c.sym, c.len) ∈ orderedSymsUpTo lens maxB := by
  intro c hc
  unfold assignCodes at hc
  simp only [List.mem_map] at hc
  obtain ⟨t, ht, rfl⟩ := hc
  have := canonAux_proj maxB (orderedSymsUpTo lens maxB) 0
  rw [← this]
  exact List.mem_map_of_mem _ ht

/-- Every assigned code length lies between 1 and the ceiling. -/
theorem assignCodes_len_bounds (maxB : Nat) (lens : List Nat) :
    ∀ c ∈ assignCodes maxB lens, 1 ≤ c.len ∧ c.len ≤ maxB := by
  intro c hc
  exact orderedSymsUpTo_mem lens maxB (c.sym, c.len) (assignCodes_mem maxB lens c hc)

/-- The canonical codes are prefix-free: no assigned codeword is a
bitstring prefix of a different symbol's codeword. -/
theorem assignCodes_pf (maxB : Nat) (lens : List Nat) :
    ∀ c1 ∈ assignCodes maxB lens, ∀ c2 ∈ assignCodes maxB lens,
      c1.sym ≠ c2.sym → ¬ numPrefOf c1 c2 := by
  intro c1 hc1 c2 hc2 hsym hpref
  obtain ⟨hlen, hdiv⟩ := hpref
  unfold assignCodes at hc1 hc2
  simp only [List.mem_map] at hc1 hc2
  obtain ⟨t1, ht1, heq1⟩ := hc1
  obtain ⟨t2, ht2, heq2⟩ := hc2
  -- alignment of each start to its own width
  have hsorted := orderedSymsUpTo_sorted lens maxB
  have hdvdall : ∀ p ∈ orderedSymsUpTo lens maxB, 2 ^ (maxB - p.2) ∣ 0 :=
    fun p _ => Nat.dvd_zero _
  have hal1 := canonAux_div maxB (orderedSymsUpTo lens maxB) 0 hsorted hdvdall t1 ht1
  have hal2 := canonAux_div maxB (orderedSymsUpTo lens maxB) 0 hsorted hdvdall t2 ht2
  -- lengths are within the ceiling
  have hmem1 : (t1.1, t1.2.1) ∈ orderedSymsUpTo lens maxB := by
    rw [← canonAux_proj maxB (orderedSymsUpTo lens maxB) 0]
    exact List.mem_map_of_mem _ ht1
  have hmem2 : (t2.1, t2.2.1) ∈ orderedSymsUpTo lens maxB := by
    rw [← canonAux_proj maxB (orderedSymsUpTo lens maxB) 0]
    exact List.mem_map_of_mem _ ht2
  have hb1 := orderedSymsUpTo_mem lens maxB _ hmem1
  have hb2 := orderedSymsUpTo_mem lens maxB _ hmem2
  -- notation
  set l1 := t1.2.1 with hl1
  set l2 := t2.2.1 with hl2
  set st1 := t1.2.2 with hst1
  set st2 := t2.2.2 with hst2
  have hlen12 : l1 ≤ l2 := by
    rw [← heq1, ← heq2] at hlen
    exact hlen
  have hl2maxB : l2 ≤ maxB := hb2.2
  -- widths
  have hww : 2 ^ (l2 - l1) * 2 ^ (maxB - l2) = 2 ^ (maxB - l1) := by
    rw [← Nat.pow_add]
    exact congrArg (2 ^ ·) (by omega)
  have hw2pos : 0 < 2 ^ (maxB - l2) := Nat.pos_pow_of_pos _ (by omega)
  have hdpos : 0 < 2 ^ (l2 - l1) := Nat.pos_pow_of_pos _ (by omega)
  -- exact starts
  have hexact1 : st1 / 2 ^ (maxB - l1) * 2 ^ (maxB - l1) = st1 :=
    Nat.div_mul_cancel hal1
  have hexact2 : st2 / 2 ^ (maxB - l2) * 2 ^ (maxB - l2) = st2 :=
    Nat.div_mul_cancel hal2
  -- the prefix hypothesis in terms of starts
  have hdiv' : (st2 / 2 ^ (maxB - l2)) / 2 ^ (l2 - l1) = st1 / 2 ^ (maxB - l1) := by
    rw [← heq1, ← heq2] at hdiv
    exact hdiv
  set q1 := st1 / 2 ^ (maxB - l1) with hq1
  set q2 := st2 / 2 ^ (maxB - l2) with hq2
  -- q1 * 2^(l2-l1) ≤ q2 < q1 * 2^(l2-l1) + 2^(l2-l1)
  have hlb : q1 * 2 ^ (l2 - l1) ≤ q2 := by
    rw [← hdiv']
    exact Nat.div_mul_le_self q2 _
  have hub : q2 < q1 * 2 ^ (l2 - l1) + 2 ^ (l2 - l1) := by
    have hmod := Nat.div_add_mod q2 (2 ^ (l2 - l1))
    have hmlt := Nat.mod_lt q2 hdpos
    rw [hdiv', Nat.mul_comm] at hmod
    omega
  -- transfer to starts
  have hstl : st1 ≤ st2 := by
    have := Nat.mul_le_mul_right (2 ^ (maxB - l2)) hlb
    rw [Nat.mul_assoc, hww, hexact1] at this
    rw [← hexact2]
    exact this
  have hstu : st2 < st1 + 2 ^ (maxB - l1) := by
    have hml := (Nat.mul_lt_mul_right hw2pos).mpr hub
    rw [Nat.add_mul, Nat.mul_assoc, hww, hexact1, hexact2] at hml
    exact hml
  -- positional ordering of the two entries
  have hne : t1 ≠ t2 := by
    intro hcontra
    apply hsym
    rw [← heq1, ← heq2, hcontra]
  have hpair := canonAux_ordered maxB (orderedSymsUpTo lens maxB) 0
  have hpair' : List.Pairwise
      (fun u v => (u.2.2 + 2 ^ (maxB - u.2.1) ≤ v.2.2)
        ∨ (v.2.2 + 2 ^ (maxB - v.2.1) ≤ u.2.2))
      (canonAux maxB (orderedSymsUpTo lens maxB) 0) :=
    hpair.imp Or.inl
  have hsymm : Symmetric (fun u v : Nat × Nat × Nat =>
      (u.2.2 + 2 ^ (maxB - u.2.1) ≤ v.2.2)
        ∨ (v.2.2 + 2 ^ (maxB - v.2.1) ≤ u.2.2)) := by
    intro u v h
    exact h.symm
  have hcases := List.Pairwise.forall hsymm hpair' ht1 ht2 hne
  have hw1pos : 0 < 2 ^ (maxB - l1) := Nat.pos_pow_of_pos _ (by omega)
  have hw2pos' : 0 < 2 ^ (maxB - l2) := hw2pos
  rcases hcases with h | h
  · rw [← hst1, ← hl1, ← hst2] at h
    omega
  · rw [← hst2, ← hl2, ← hst1] at h
    omega

/-! ### The builder and claim C4 -/

/-- The derived length table has one entry per symbol. -/
theorem lengthsFromTree_length (freqs : List Nat) :
    (lengthsFromTree freqs).length = freqs.length := by
  unfold lengthsFromTree
  cases buildTree freqs with
  | none => simp
  | some t => simp

/-- Claim C4: every Huffman code the builder derives from any frequency
table (over an alphabet of at most `2^15` symbols, which covers DEFLATE's
288- and 30-symbol alphabets) assigns each symbol a code length between
1 and 15 bits, satisfies the Kraft inequality — the sum of
`2^(15 - length)` over all assigned symbols is at most `2^15`, i.e. the
Kraft sum is 1 for a complete code and below 1 for an incomplete one —
and satisfies the prefix property: no assigned codeword is a bitstring
prefix (numeric MSB-first form) of a different symbol's codeword. -/
theorem C4_huffman_valid (freqs : List Nat) (hn : freqs.length ≤ 32768) :
    (∀ c ∈ buildHuffCode freqs, 1 ≤ c.len ∧ c.len ≤ 15) ∧
    ((buildHuffCode freqs).map (fun c => 2 ^ (15 - c.len))).sum ≤ 2 ^ 15 ∧
    (∀ c1 ∈ buildHuffCode freqs, ∀ c2 ∈ buildHuffCode freqs,
      c1.sym ≠ c2.sym → ¬ numPrefOf c1 c2) := by
  have hlen : (lengthsFromTree freqs).length ≤ 2 ^ 15 := by
    rw [lengthsFromTree_length]
    calc freqs.length ≤ 32768 := hn
      _ = 2 ^ 15 := by norm_num
  obtain ⟨hceil, hkraft, _⟩ := limitLens_spec 15 (lengthsFromTree freqs) hlen
  refine ⟨?_, ?_, ?_⟩
  · exact assignCodes_len_bounds 15 _
  · rw [show buildHuffCode freqs = assignCodes 15 (limitLens 15 (lengthsFromTree freqs))
      from rfl]
    rw [assignCodes_kraft 15 _ hceil]
    exact hkraft
  · exact assignCodes_pf 15 _

/-- Witness for C4 at a concrete frequency table. -/
theorem C4_huffman_valid_witness :
    (∀ c ∈ buildHuffCode [5, 0, 3, 1, 1], 1 ≤ c.len ∧ c.len ≤ 15) ∧
    ((buildHuffCode [5, 0, 3, 1, 1]).map (fun c => 2 ^ (15 - c.len))).sum ≤ 2 ^ 15 ∧
    (∀ c1 ∈ buildHuffCode [5, 0, 3, 1, 1], ∀ c2 ∈ buildHuffCode [5, 0, 3, 1, 1],
      c1.sym ≠ c2.sym → ¬ numPrefOf c1 c2) :=
  C4_huffman_valid [5, 0, 3, 1, 1] (by decide)

end Zopfli
